import Mathlib

/-!
Verification of the dbfs repository (a filesystem stored in a sqlite
database, `dbfs.go`).  Go strings are modelled as `List Char`, the two
sqlite tables (`github_dgsb_dbfs_files`, `github_dgsb_dbfs_chunks`) as
lists of rows, and every operation is translated statement by statement
from the source.  Store-level (I/O) failures are modelled separately by
an error-injection oracle in the `F`-suffixed functions, which mirror
the Go control flow including the scoping of the `err` variable read by
the deferred commit/rollback closure of `UpsertFile`.
-/

namespace Dbfs

/-- Go strings, modelled as lists of characters. -/
abbrev Str := List Char

/-- File content bytes (the code never computes on byte values). -/
abbrev Byte := Nat

/-- The `type` column value for directories (constant `DirectoryType = "d"`). -/
def DirectoryType : Str := ['d']

/-- The `type` column value for regular files (constant `RegularFileType = "f"`). -/
def RegularFileType : Str := ['f']

/-- Go `path.IsAbs`: a path is absolute iff it begins with a slash. -/
def isAbs : Str → Bool
  | [] => false
  | c :: _ => c = '/'

/-- Go `strings.Split(s, "/")`: split at every slash; the split of the
empty string is `[""]`. -/
def splitSlash : Str → List Str
  | [] => [[]]
  | c :: rest =>
    if c = '/' then [] :: splitSlash rest
    else
      match splitSlash rest with
      | [] => [[c]]
      | r :: rs => (c :: r) :: rs

/-- Inverse of `splitSlash`: join components with slashes. -/
def joinSlash : List Str → Str
  | [] => []
  | [c] => c
  | c :: rest => c ++ '/' :: joinSlash rest

/-- One step of the `..`-elimination of Go `path.Clean` for non-rooted
paths: a `..` pops the previously kept component unless there is none or
it is itself a `..` (the accumulator holds the kept components in
reverse order). -/
def dotdotStep (out : List Str) (c : Str) : List Str :=
  if c = ['.', '.'] then
    match out with
    | [] => [c]
    | top :: rest => if top = ['.', '.'] then c :: out else rest
  else c :: out

/-- The components of Go `path.Clean` applied to a non-rooted path:
empty and `.` components are dropped, then `..` components are folded. -/
def cleanComps (s : Str) : List Str :=
  (((splitSlash s).filter fun c => decide (c ≠ [] ∧ c ≠ ['.'])).foldl dotdotStep []).reverse

/-- Go `path.Clean` restricted to non-rooted paths (every call site in
the code rejects absolute paths before cleaning).  An empty result
yields `"."`. -/
def clean (s : Str) : Str :=
  match cleanComps s with
  | [] => ['.']
  | cs => joinSlash cs

/-- Go `io/fs.ValidPath`: the name is `"."`, or every slash-separated
element is non-empty and neither `"."` nor `".."`. -/
def validPath (s : Str) : Bool :=
  s = ['.'] || (splitSlash s).all fun c => decide (c ≠ [] ∧ c ≠ ['.'] ∧ c ≠ ['.', '.'])

/-- Go `path.Base`: strip trailing slashes, keep the suffix after the
last slash; empty input gives `"."`, an all-slash input gives `"/"`. -/
def pathBase (s : Str) : Str :=
  if s = [] then ['.']
  else
    let t := (s.reverse.dropWhile fun c => c = '/').reverse
    if t = [] then ['/']
    else (t.reverse.takeWhile fun c => c ≠ '/').reverse

/-- A row of the `github_dgsb_dbfs_files` table. -/
structure Node where
  inode : Nat
  fname : Str
  parent : Option Nat
  ftype : Str
deriving DecidableEq, Repr

/-- A row of the `github_dgsb_dbfs_chunks` table. -/
structure ChunkRow where
  inode : Nat
  position : Nat
  data : List Byte
  size : Nat
deriving DecidableEq, Repr

/-- The persistent store: the two tables plus the next inode the
sqlite `AUTOINCREMENT` column will hand out. -/
structure DB where
  nodes : List Node
  chunks : List ChunkRow
  nextInode : Nat
deriving DecidableEq, Repr

/-- The `FS` handle: the root inode resolved at construction. -/
structure FSH where
  rootInode : Nat
deriving DecidableEq, Repr

/-- The store right after the migration: exactly the root row
`(fname "/", parent NULL, type "d")`, with inode 1. -/
def initDB : DB := ⟨[⟨1, ['/'], none, DirectoryType⟩], [], 2⟩

/-- The handle produced by `NewSqliteFS` on a fresh store. -/
def initFS : FSH := ⟨1⟩

/-- `SELECT inode, type FROM files WHERE parent = ? AND fname = ?`
(the `(parent, fname)` pair is unique, so the first match is the row). -/
def lookupChild (db : DB) (parent : Nat) (name : Str) : Option Node :=
  db.nodes.find? fun n => decide (n.parent = some parent ∧ n.fname = name)

/-- `SELECT COALESCE(sum(size), 0) FROM chunks WHERE inode = ?`. -/
def sumSizes (db : DB) (ino : Nat) : Nat :=
  (((db.chunks.filter fun c => decide (c.inode = ino))).map fun c => c.size).sum

/-- The chunk rows of one inode in ascending `position` order
(`ORDER BY position`). -/
def fileChunks (db : DB) (ino : Nat) : List ChunkRow :=
  List.insertionSort (fun a b => a.position ≤ b.position)
    (db.chunks.filter fun c => decide (c.inode = ino))

/-- `SELECT ... FROM files ... WHERE parent = ? AND inode > ? ORDER BY inode`. -/
def childrenFrom (db : DB) (ino : Nat) (cursor : Nat) : List Node :=
  List.insertionSort (fun a b => a.inode ≤ b.inode)
    (db.nodes.filter fun n => decide (n.parent = some ino ∧ cursor < n.inode))

/-- The error classes the code can produce.  Constructors record the
sentinel a Go error wraps (`errors.Is` identity): `invalidPath` wraps
`InvalidPathErr`, `nodeNotFound` wraps `InodeNotFoundErr`,
`incorrectType` wraps `IncorrectTypeErr`, `dirNotEmpty` wraps
`DirNotEmptyErr`.  `nilWrap` is the error `fmt.Errorf("%w: %s", err,
fname)` built in `DeleteFile` while `err` is nil: non-nil, but wrapping
no sentinel.  `openInvalid` is the plain error `"path to open is
invalid"` of `Open`, likewise wrapping no sentinel. -/
inductive FsErr where
  | invalidPath (p : Str)
  | nodeNotFound (parent : Nat) (name : Str)
  | incorrectType (subpath : Str) (ftype : Str)
  | dirNotEmpty (p : Str)
  | nilWrap (p : Str)
  | openInvalid (p : Str)
  | fileClosed
  | eof
deriving DecidableEq, Repr

/-- `errors.Is(e, InvalidPathErr)`. -/
def FsErr.isInvalidPathClass : FsErr → Bool
  | .invalidPath _ => true
  | _ => false

/-- `errors.Is(e, DirNotEmptyErr)`. -/
def FsErr.isDirNotEmptyClass : FsErr → Bool
  | .dirNotEmpty _ => true
  | _ => false

/-- `errors.Is(e, InodeNotFoundErr)`. -/
def FsErr.isNodeNotFoundClass : FsErr → Bool
  | .nodeNotFound _ _ => true
  | _ => false

/-- `INSERT INTO files (fname, parent, type) VALUES (?, ?, ?) RETURNING
inode`: the new row gets the next autoincrement inode. -/
def insertNode (db : DB) (name : Str) (parent : Nat) (ftype : Str) : Nat × DB :=
  (db.nextInode,
   { db with
      nodes := db.nodes ++ [⟨db.nextInode, name, some parent, ftype⟩],
      nextInode := db.nextInode + 1 })

/-- The type a path component receives on insertion: directory for all
but the last component, regular file for the last. -/
def compType (isLast : Bool) : Str :=
  if isLast then RegularFileType else DirectoryType

/-- `FS.addRegularFileNode`: walk the components from `parent`; while
`searchMode` holds, probe for the component and type-check a hit
(directories before the last component, a regular file at it); on the
first miss switch to insertion mode and insert every remaining
component fresh.  `done` records the components already consumed, for
the `IncorrectType` message `"/" + strings.Join(components[:i+1], "/")`. -/
def addRegularFileNode : DB → Nat → Bool → List Str → List Str → Except FsErr (Nat × DB)
  | db, parent, _, _, [] => .ok (parent, db)
  | db, parent, searchMode, done, c :: rest =>
    if searchMode then
      match lookupChild db parent c with
      | some nd =>
        if (rest ≠ [] ∧ nd.ftype ≠ DirectoryType) ∨ (rest = [] ∧ nd.ftype ≠ RegularFileType) then
          .error (.incorrectType ('/' :: joinSlash (done ++ [c])) nd.ftype)
        else
          addRegularFileNode db nd.inode true (done ++ [c]) rest
      | none =>
        let (ino, db1) := insertNode db c parent (compType (rest = []))
        addRegularFileNode db1 ino false (done ++ [c]) rest
    else
      let (ino, db1) := insertNode db c parent (compType (rest = []))
      addRegularFileNode db1 ino false (done ++ [c]) rest

/-- The chunk rows the `UpsertFile` loop inserts, starting at position
`pos`: each chunk takes `min remaining chunkSize` bytes.  The fuel is
the remaining byte count; with `1 ≤ cs` it never runs out (for
`cs = 0` and non-empty data the Go loop does not terminate, a case no
claim exercises). -/
def chunkRowsAux (ino cs : Nat) : Nat → Nat → List Byte → List ChunkRow
  | 0, _, _ => []
  | _ + 1, _, [] => []
  | fuel + 1, pos, b :: bs =>
    let tw := min (b :: bs).length cs
    ⟨ino, pos, (b :: bs).take tw, tw⟩ :: chunkRowsAux ino cs fuel (pos + 1) ((b :: bs).drop tw)

/-- All chunk rows written for `data` with chunk size `cs`, at
positions `0, 1, ...`. -/
def chunkRows (ino cs : Nat) (data : List Byte) : List ChunkRow :=
  chunkRowsAux ino cs data.length 0 data

/-- `FS.UpsertFile` with the store itself never failing: reject
absolute paths, `path.Clean` the name, create-or-reuse the node chain,
delete the inode's chunks, insert the new rows.  An error from
`addRegularFileNode` sets the outer `err`, so the deferred closure
rolls the transaction back (the caller keeps the old store); otherwise
it commits. -/
def UpsertFile (fs : FSH) (db : DB) (fname : Str) (chunkSize : Nat) (data : List Byte) :
    Option FsErr × DB :=
  if isAbs fname then (some (.invalidPath fname), db)
  else
    let cleaned := clean fname
    match addRegularFileNode db fs.rootInode true [] (splitSlash cleaned) with
    | .error e => (some e, db)
    | .ok (ino, txDb) =>
      let txDb := { txDb with chunks := txDb.chunks.filter fun c => decide (c.inode ≠ ino) }
      (none, { txDb with chunks := txDb.chunks ++ chunkRows ino chunkSize data })

/-- The loop of `FS.namei`: resolve the components one lookup at a
time, carrying the last scanned `(inode, type)` (zero-valued before the
first iteration, matching the Go variables). -/
def nameiWalk (db : DB) : Nat → Nat × Str → List Str → Except FsErr (Nat × Str)
  | _, acc, [] => .ok acc
  | parent, _, c :: rest =>
    match lookupChild db parent c with
    | none => .error (.nodeNotFound parent c)
    | some nd => nameiWalk db nd.inode (nd.inode, nd.ftype) rest

/-- `FS.namei`: reject absolute paths, send `"."` to the root, else
split on slashes and walk from the root. -/
def namei (fs : FSH) (db : DB) (fname : Str) : Except FsErr (Nat × Str) :=
  if isAbs fname then .error (.invalidPath fname)
  else if fname = ['.'] then .ok (fs.rootInode, DirectoryType)
  else nameiWalk db fs.rootInode (0, []) (splitSlash fname)

/-- `FS.DeleteFile`: resolve the node, count its children; a positive
count returns `fmt.Errorf("%w: %s", err, fname)` — but `err` is nil at
that point, hence `nilWrap` —; otherwise delete the chunk rows and the
node row.  Errors roll the transaction back. -/
def DeleteFile (fs : FSH) (db : DB) (fname : Str) : Option FsErr × DB :=
  match namei fs db fname with
  | .error e => (some e, db)
  | .ok (ino, _) =>
    let childCount := (db.nodes.filter fun n => decide (n.parent = some ino)).length
    if 0 < childCount then (some (.nilWrap fname), db)
    else
      (none,
       { db with
          chunks := db.chunks.filter fun c => decide (c.inode ≠ ino),
          nodes := db.nodes.filter fun n => decide (n.inode ≠ ino) })

/-- An open file handle (`File`): the cursor state `Read` and `ReadDir`
mutate.  `offset` doubles as the byte offset of `Read` and the inode
cursor of `ReadDir`, exactly as in the source. -/
structure File where
  ftype : Str
  name : Str
  inode : Nat
  offset : Nat
  size : Nat
  closed : Bool
  eof : Bool
deriving DecidableEq, Repr

/-- The `strings.HasPrefix(fname, "./")` / `strings.CutPrefix(fname, ".")`
step of `Open`: a leading `"./"` loses its dot. -/
def stripDotSlash : Str → Str
  | '.' :: '/' :: rest => '/' :: rest
  | other => other

/-- `FS.Open`: check `fs.ValidPath`, keep the original name on the
handle, strip a `./` prefix, `path.Clean`, resolve with `namei`, and
record the summed chunk sizes as the file size.  The cursor starts at
offset 0 with both flags clear. -/
def Open (fs : FSH) (db : DB) (fname : Str) : Except FsErr File :=
  if ¬ validPath fname then .error (.openInvalid fname)
  else
    let name := fname
    let cleaned := clean (stripDotSlash fname)
    match namei fs db cleaned with
    | .error e => .error e
    | .ok (ino, ftype) => .ok ⟨ftype, name, ino, 0, sumSizes db ino, false, false⟩

/-- The chunk rows of an inode paired with their cumulative start
offsets, the window aggregate `SUM(size) OVER (ORDER BY position ROWS
BETWEEN UNBOUNDED PRECEDING AND 1 PRECEDING)` of the `Read` query. -/
def withStarts : Nat → List ChunkRow → List (ChunkRow × Nat)
  | _, [] => []
  | t, c :: rest => (c, t) :: withStarts (t + c.size) rest

/-- The rows the `Read` query returns: chunks with
`offset < start + size` and `offset + toRead >= start`, in position
order, as `(data, start)` pairs. -/
def selectChunks (off toRead : Nat) (rows : List ChunkRow) : List (List Byte × Nat) :=
  ((withStarts 0 rows).filter fun p =>
      decide (off < p.2 + p.1.size ∧ p.2 ≤ off + toRead)).map
    fun p => (p.1.data, p.2)

/-- The copy loop of `File.Read` over the selected rows: each step
copies `copy(out[copied:], buf[f.offset-start:])` bytes — the
accumulator is what has been written to `out` so far — advances the
file offset by that count, and stops once `copied >= toRead`. -/
def readLoop (outLen toRead : Nat) : List (List Byte × Nat) → Nat → List Byte → List Byte × Nat
  | [], fOff, acc => (acc, fOff)
  | (buf, start) :: rest, fOff, acc =>
    let src := buf.drop (fOff - start)
    let numByte := min (outLen - acc.length) src.length
    let acc1 := acc ++ src.take (outLen - acc.length)
    let fOff1 := fOff + numByte
    if toRead ≤ acc1.length then (acc1, fOff1)
    else readLoop outLen toRead rest fOff1 acc1

/-- `File.Read` into a buffer of length `outLen`: reject non-regular
files and closed handles, signal `io.EOF` at or past the end, else copy
`toRead = min(size - offset, outLen)` bytes via the chunk query and the
copy loop.  Returns the Go return value `int(toRead)`, the bytes
placed in the buffer, and the updated handle. -/
def fileRead (db : DB) (f : File) (outLen : Nat) : Except FsErr (Nat × List Byte × File) :=
  if f.ftype ≠ RegularFileType then .error (.incorrectType [] f.ftype)
  else if f.closed then .error .fileClosed
  else if f.size ≤ f.offset then .error .eof
  else
    let toRead := min (f.size - f.offset) outLen
    let sel := selectChunks f.offset toRead (fileChunks db f.inode)
    let res := readLoop outLen toRead sel f.offset []
    .ok (toRead, res.1, { f with offset := res.2 })

/-- `File.Close`: mark the handle closed (always succeeds). -/
def fileClose (f : File) : File := { f with closed := true }

/-- One directory entry as produced through `File.Stat` and
`fs.FileInfoToDirEntry`: base name, type, summed chunk sizes. -/
structure DirEntry where
  name : Str
  ftype : Str
  size : Nat
deriving DecidableEq, Repr

/-- The entry `ReadDir` builds for one child row (the LEFT JOIN sums
`COALESCE(size, 0)` over the child's chunks). -/
def entryOf (db : DB) (n : Node) : DirEntry :=
  ⟨pathBase n.fname, n.ftype, sumSizes db n.inode⟩

/-- `File.ReadDir n`: reject non-directories; once the `eof` flag is
set, a positive `n` signals `io.EOF` and a non-positive one returns an
empty result; otherwise list the children past the `offset` cursor in
inode order (`LIMIT n` when positive), move the cursor to the last
returned inode, and set `eof` when no row came back. -/
def ReadDir (db : DB) (f : File) (n : Int) : Except FsErr (List DirEntry) × File :=
  if f.ftype ≠ DirectoryType then (.error (.incorrectType [] f.ftype), f)
  else if f.eof then
    if 0 < n then (.error .eof, f) else (.ok [], f)
  else
    let rows := childrenFrom db f.inode f.offset
    let rows := if 0 < n then rows.take n.toNat else rows
    let entries := rows.map (entryOf db)
    let newOff := match rows.getLast? with
      | some last => last.inode
      | none => f.offset
    (.ok entries, { f with offset := newOff, eof := rows.isEmpty })

/-- Reading a file to the end, as `fs.ReadFile` does: call `Read` with
a buffer of `bufLen` bytes until a call fails (normally with `io.EOF`),
concatenating what each call wrote.  The fuel bounds the number of
calls; `size + 1` calls always suffice when `1 ≤ bufLen`. -/
def readUntilEOF (db : DB) (bufLen : Nat) : Nat → File → List Byte
  | 0, _ => []
  | fuel + 1, f =>
    match fileRead db f bufLen with
    | .error _ => []
    | .ok (_, bytes, f1) => bytes ++ readUntilEOF db bufLen fuel f1

/-- `count` successive `ReadDir` calls with page size `k`, collecting
the pages of calls that succeed and stopping at the first failure. -/
def readDirPages (db : DB) (k : Int) : Nat → File → List (List DirEntry) × File
  | 0, f => ([], f)
  | count + 1, f =>
    match ReadDir db f k with
    | (.ok es, f1) =>
      let rest := readDirPages db k count f1
      (es :: rest.1, rest.2)
    | (.error _, f1) => ([], f1)

/-- Store-level failures for the oracle-instrumented functions: a
query or statement the backing store failed to execute. -/
inductive StoreErr where
  | incorrectType (subpath : Str) (ftype : Str)
  | queryNodeFail
  | insertNodeFail
  | deleteChunksFail
  | insertChunkFail
  | invalidPath (p : Str)
deriving DecidableEq, Repr

/-- `addRegularFileNode` under an error-injection oracle: `orc i = true`
makes the `i`-th store operation (counted in execution order across the
whole `UpsertFile` call) fail.  Returns the result together with the
next operation index.  Every error of this function is assigned to the
outer `err` variable of `UpsertFile`. -/
def addRegularFileNodeF (orc : Nat → Bool) :
    DB → Nat → Nat → Bool → List Str → List Str → (Except StoreErr (Nat × DB)) × Nat
  | db, ctr, parent, _, _, [] => (.ok (parent, db), ctr)
  | db, ctr, parent, searchMode, done, c :: rest =>
    if searchMode then
      if orc ctr then (.error .queryNodeFail, ctr + 1)
      else
        match lookupChild db parent c with
        | some nd =>
          if (rest ≠ [] ∧ nd.ftype ≠ DirectoryType) ∨
              (rest = [] ∧ nd.ftype ≠ RegularFileType) then
            (.error (.incorrectType ('/' :: joinSlash (done ++ [c])) nd.ftype), ctr + 1)
          else
            addRegularFileNodeF orc db (ctr + 1) nd.inode true (done ++ [c]) rest
        | none =>
          if orc (ctr + 1) then (.error .insertNodeFail, ctr + 2)
          else
            let (ino, db1) := insertNode db c parent (compType (rest = []))
            addRegularFileNodeF orc db1 (ctr + 2) ino false (done ++ [c]) rest
    else
      if orc ctr then (.error .insertNodeFail, ctr + 1)
      else
        let (ino, db1) := insertNode db c parent (compType (rest = []))
        addRegularFileNodeF orc db1 (ctr + 1) ino false (done ++ [c]) rest

/-- The chunk-insert loop of `UpsertFile` under the oracle.  A failed
`INSERT` makes the Go code return a non-nil error, but that error is
bound to an `err` shadowed inside the loop body: the deferred closure
still sees the outer `err` as nil, so it commits the transaction built
so far and overwrites the returned error with the nil result of
`Commit` — hence the `(none, partially written store)` outcome. -/
def insertChunksF (orc : Nat → Bool) (ino cs : Nat) :
    Nat → Nat → Nat → DB → List Byte → Option StoreErr × DB
  | 0, _, _, db, _ => (none, db)
  | _ + 1, _, _, db, [] => (none, db)
  | fuel + 1, ctr, pos, db, b :: bs =>
    if orc ctr then (none, db)
    else
      let tw := min (b :: bs).length cs
      let db1 := { db with chunks := db.chunks ++ [⟨ino, pos, (b :: bs).take tw, tw⟩] }
      insertChunksF orc ino cs fuel (ctr + 1) (pos + 1) db1 ((b :: bs).drop tw)

/-- `FS.UpsertFile` under the error-injection oracle, mirroring the Go
control flow: an error from `addRegularFileNode` is assigned to the
outer `err`, so the deferred closure rolls back (old store, non-nil
error); a failure of the chunk `DELETE` or of a chunk `INSERT` is
assigned to a shadowed `err`, so the closure sees nil, commits the
transaction state reached so far, and replaces the function result with
`Commit`'s nil error. -/
def UpsertFileF (orc : Nat → Bool) (fs : FSH) (db : DB) (fname : Str)
    (chunkSize : Nat) (data : List Byte) : Option StoreErr × DB :=
  if isAbs fname then (some (.invalidPath fname), db)
  else
    let cleaned := clean fname
    match addRegularFileNodeF orc db 0 fs.rootInode true [] (splitSlash cleaned) with
    | (.error e, _) => (some e, db)
    | (.ok (ino, txDb), ctr) =>
      if orc ctr then (none, txDb)
      else
        let txDb := { txDb with chunks := txDb.chunks.filter fun c => decide (c.inode ≠ ino) }
        insertChunksF orc ino chunkSize data.length (ctr + 1) 0 txDb data

/-- The total of the `size` fields of a list of chunk rows. -/
def totalSize (rows : List ChunkRow) : Nat := (rows.map ChunkRow.size).sum

/-- The byte content represented by a list of chunk rows, in list order. -/
def chunksContent (rows : List ChunkRow) : List Byte := (rows.map ChunkRow.data).flatten

/-- Well-formed chunk rows: the `size` column holds the data length and
no chunk is empty (every row `UpsertFile` writes with a positive chunk
size is of this shape). -/
def WFrows (rows : List ChunkRow) : Prop :=
  ∀ r ∈ rows, r.size = r.data.length ∧ r.data ≠ []

instance (rows : List ChunkRow) : Decidable (WFrows rows) := by
  unfold WFrows
  infer_instance

/- ### Lemmas about the path helpers -/

theorem splitSlash_ne_nil (s : Str) : splitSlash s ≠ [] := by
  cases s with
  | nil => simp [splitSlash]
  | cons c rest =>
    simp only [splitSlash]
    split
    · simp
    · cases h : splitSlash rest <;> simp

theorem joinSlash_cons_cons (c : Char) (r : Str) (rs : List Str) :
    joinSlash ((c :: r) :: rs) = c :: joinSlash (r :: rs) := by
  cases rs <;> rfl

theorem joinSlash_splitSlash (s : Str) : joinSlash (splitSlash s) = s := by
  induction s with
  | nil => rfl
  | cons c rest ih =>
    by_cases hc : c = '/'
    · subst hc
      simp only [splitSlash, if_pos rfl]
      obtain ⟨r, rs, hrs⟩ : ∃ r rs, splitSlash rest = r :: rs := by
        cases h : splitSlash rest with
        | nil => exact absurd h (splitSlash_ne_nil rest)
        | cons r rs => exact ⟨r, rs, rfl⟩
      rw [hrs]
      rw [hrs] at ih
      show '/' :: joinSlash (r :: rs) = '/' :: rest
      rw [ih]
    · simp only [splitSlash, if_neg hc]
      obtain ⟨r, rs, hrs⟩ : ∃ r rs, splitSlash rest = r :: rs := by
        cases h : splitSlash rest with
        | nil => exact absurd h (splitSlash_ne_nil rest)
        | cons r rs => exact ⟨r, rs, rfl⟩
      rw [hrs]
      rw [hrs] at ih
      rw [joinSlash_cons_cons, ih]

theorem dotdotStep_no_dots (out : List Str) (c : Str) (hc : c ≠ ['.', '.']) :
    dotdotStep out c = c :: out := by
  simp [dotdotStep, hc]

theorem foldl_dotdotStep_no_dots (l : List Str) (hl : ∀ c ∈ l, c ≠ ['.', '.']) :
    ∀ acc, l.foldl dotdotStep acc = l.reverse ++ acc := by
  induction l with
  | nil => intro acc; rfl
  | cons c rest ih =>
    intro acc
    have hc : c ≠ ['.', '.'] := hl c (by simp)
    simp only [List.foldl_cons, dotdotStep_no_dots _ _ hc]
    rw [ih (fun x hx => hl x (by simp [hx])) (c :: acc)]
    simp

/-- Every component of a valid path other than `"."` is non-empty and
neither `"."` nor `".."`. -/
theorem validPath_comps {p : Str} (hv : validPath p = true) (hp : p ≠ ['.']) :
    ∀ c ∈ splitSlash p, c ≠ [] ∧ c ≠ ['.'] ∧ c ≠ ['.', '.'] := by
  intro c hc
  simp only [validPath, Bool.or_eq_true, List.all_eq_true, decide_eq_true_eq] at hv
  rcases hv with hv | hv
  · exact absurd (by exact_mod_cast hv) hp
  · exact hv c hc

/-- Cleaning a valid path other than `"."` is the identity. -/
theorem clean_of_valid {p : Str} (hv : validPath p = true) (hp : p ≠ ['.']) :
    cleanComps p = splitSlash p ∧ clean p = p := by
  have hcomps : cleanComps p = splitSlash p := by
    unfold cleanComps
    have hfilter : (splitSlash p).filter (fun c => decide (c ≠ [] ∧ c ≠ ['.'])) = splitSlash p := by
      rw [List.filter_eq_self]
      intro c hc
      have := validPath_comps hv hp c hc
      simp [this.1, this.2.1]
    rw [hfilter, foldl_dotdotStep_no_dots _ (fun c hc => (validPath_comps hv hp c hc).2.2) []]
    simp
  refine ⟨hcomps, ?_⟩
  unfold clean
  rw [hcomps]
  obtain ⟨r, rs, hrs⟩ : ∃ r rs, splitSlash p = r :: rs := by
    cases h : splitSlash p with
    | nil => exact absurd h (splitSlash_ne_nil p)
    | cons r rs => exact ⟨r, rs, rfl⟩
  rw [hrs]
  have := joinSlash_splitSlash p
  rw [hrs] at this
  exact this

/-- An absolute path never satisfies `fs.ValidPath`. -/
theorem isAbs_not_valid {p : Str} (h : isAbs p = true) : validPath p = false := by
  obtain ⟨rest, rfl⟩ : ∃ rest, p = '/' :: rest := by
    cases p with
    | nil => simp [isAbs] at h
    | cons c rest =>
      simp only [isAbs, decide_eq_true_eq] at h
      exact ⟨rest, by rw [h]⟩
  simp [validPath, splitSlash]

/-- A valid path is not absolute. -/
theorem valid_not_abs {p : Str} (hv : validPath p = true) : isAbs p = false := by
  by_contra h
  have : isAbs p = true := by
    cases hAbs : isAbs p
    · exact absurd hAbs h
    · rfl
  rw [isAbs_not_valid this] at hv
  exact Bool.false_ne_true hv

/-- A valid path other than `"."` does not start with `"./"`. -/
theorem valid_no_dotSlash {p : Str} (hv : validPath p = true) (hp : p ≠ ['.']) :
    ∀ rest, p ≠ '.' :: '/' :: rest := by
  intro rest hEq
  subst hEq
  have : splitSlash ('.' :: '/' :: rest) = ['.'] :: splitSlash rest := by
    simp [splitSlash]
  have h2 := validPath_comps hv hp ['.'] (by rw [this]; simp)
  exact h2.2.1 rfl

/- ### Lemmas about the chunk rows written by `UpsertFile` -/

theorem chunkRowsAux_nil (ino cs : Nat) : ∀ fuel pos, chunkRowsAux ino cs fuel pos [] = [] := by
  intro fuel pos
  cases fuel <;> rfl

theorem chunkRowsAux_cons (ino cs fuel pos : Nat) (data : List Byte) (hd : data ≠ []) :
    chunkRowsAux ino cs (fuel + 1) pos data =
      ⟨ino, pos, data.take (min data.length cs), min data.length cs⟩ ::
        chunkRowsAux ino cs fuel (pos + 1) (data.drop (min data.length cs)) := by
  cases data with
  | nil => exact absurd rfl hd
  | cons b bs => rfl

/-- The number of chunks: the ceiling of `length / cs`. -/
theorem ceil_div_small {n cs : Nat} (h1 : 1 ≤ n) (h2 : n ≤ cs) : (n + cs - 1) / cs = 1 := by
  apply Nat.div_eq_of_lt_le <;> omega

theorem ceil_div_zero {cs : Nat} (hcs : 1 ≤ cs) : (0 + cs - 1) / cs = 0 :=
  Nat.div_eq_of_lt (by omega)

theorem ceil_div_step {n cs : Nat} (hcs : 1 ≤ cs) (h : cs ≤ n) :
    (n + cs - 1) / cs = (n - cs + cs - 1) / cs + 1 := by
  have h1 : n + cs - 1 = (n - cs + cs - 1) + cs := by omega
  rw [h1, Nat.add_div_right _ hcs]

/-- The full specification of the rows the chunk-writing loop of
`UpsertFile` produces, for a positive chunk size: the concatenated data
is the input, there are `ceil (length / cs)` rows at consecutive
positions, every row has matching `size`, non-empty data, the right
inode and at most `cs` bytes, every non-final row has exactly `cs`
bytes, and the sizes sum to the input length. -/
theorem chunkRowsAux_spec (ino cs : Nat) (hcs : 1 ≤ cs) :
    ∀ fuel pos (data : List Byte), data.length ≤ fuel →
      chunksContent (chunkRowsAux ino cs fuel pos data) = data ∧
      (chunkRowsAux ino cs fuel pos data).length = (data.length + cs - 1) / cs ∧
      (chunkRowsAux ino cs fuel pos data).map ChunkRow.position =
        List.range' pos ((data.length + cs - 1) / cs) ∧
      WFrows (chunkRowsAux ino cs fuel pos data) ∧
      (∀ r ∈ chunkRowsAux ino cs fuel pos data, r.inode = ino ∧ r.size ≤ cs) ∧
      (∀ r ∈ (chunkRowsAux ino cs fuel pos data).dropLast, r.size = cs) ∧
      totalSize (chunkRowsAux ino cs fuel pos data) = data.length := by
  have nilCase : ∀ fuel pos,
      chunksContent (chunkRowsAux ino cs fuel pos []) = [] ∧
      (chunkRowsAux ino cs fuel pos []).length = (([] : List Byte).length + cs - 1) / cs ∧
      (chunkRowsAux ino cs fuel pos []).map ChunkRow.position =
        List.range' pos ((([] : List Byte).length + cs - 1) / cs) ∧
      WFrows (chunkRowsAux ino cs fuel pos []) ∧
      (∀ r ∈ chunkRowsAux ino cs fuel pos [], r.inode = ino ∧ r.size ≤ cs) ∧
      (∀ r ∈ (chunkRowsAux ino cs fuel pos []).dropLast, r.size = cs) ∧
      totalSize (chunkRowsAux ino cs fuel pos []) = ([] : List Byte).length := by
    intro fuel pos
    rw [chunkRowsAux_nil]
    have h0 : (([] : List Byte).length + cs - 1) / cs = 0 := ceil_div_zero hcs
    rw [h0]
    exact ⟨rfl, rfl, rfl, fun r hr => absurd hr (List.not_mem_nil r),
      fun r hr => absurd hr (List.not_mem_nil r),
      fun r hr => absurd hr (List.not_mem_nil r), rfl⟩
  intro fuel
  induction fuel with
  | zero =>
    intro pos data h
    have hd : data = [] := List.length_eq_zero.mp (Nat.le_zero.mp h)
    subst hd
    exact nilCase 0 pos
  | succ fuel ih =>
    intro pos data h
    by_cases hne : data = []
    · subst hne
      exact nilCase (fuel + 1) pos
    · have hlen : 1 ≤ data.length := List.length_pos.mpr hne
      set tw := min data.length cs with htw
      have htw1 : 1 ≤ tw := by omega
      have htwle : tw ≤ cs := by omega
      have hdrop : (data.drop tw).length = data.length - tw := by
        simp [List.length_drop]
      have hrec := ih (pos + 1) (data.drop tw) (by omega)
      rw [chunkRowsAux_cons ino cs fuel pos data hne]
      obtain ⟨ihContent, ihLen, ihPos, ihWF, ihMem, ihDrop, ihTotal⟩ := hrec
      have hceil : (data.length + cs - 1) / cs = ((data.drop tw).length + cs - 1) / cs + 1 := by
        rw [hdrop]
        by_cases hcase : data.length ≤ cs
        · have htww : tw = data.length := by omega
          rw [htww]
          simp only [Nat.sub_self]
          rw [ceil_div_zero hcs, ceil_div_small hlen hcase]
        · have htww : tw = cs := by omega
          rw [htww, ceil_div_step hcs (by omega)]
      have hTakeLen : (data.take tw).length = tw := by
        simp only [List.length_take]
        omega
      refine ⟨?_, ?_, ?_, ?_, ?_, ?_, ?_⟩
      · show (data.take tw) ++ chunksContent (chunkRowsAux ino cs fuel (pos + 1) (data.drop tw))
          = data
        rw [ihContent, List.take_append_drop]
      · simp only [List.length_cons, ihLen, hceil]
      · simp only [List.map_cons, ihPos, hceil, List.range'_succ]
      · intro r hr
        rcases List.mem_cons.mp hr with hr | hr
        · subst hr
          refine ⟨hTakeLen.symm, ?_⟩
          show data.take tw ≠ []
          intro habs
          rw [habs] at hTakeLen
          simp only [List.length_nil] at hTakeLen
          omega
        · exact ihWF r hr
      · intro r hr
        rcases List.mem_cons.mp hr with hr | hr
        · subst hr
          exact ⟨rfl, htwle⟩
        · exact ihMem r hr
      · intro r hr
        rcases hx : chunkRowsAux ino cs fuel (pos + 1) (data.drop tw) with _ | ⟨x, xs⟩
        · rw [hx] at hr
          simp at hr
        · rw [hx] at hr
          rw [List.dropLast_cons_of_ne_nil (by simp)] at hr
          rcases List.mem_cons.mp hr with hr | hr
          · have hdropne : data.drop tw ≠ [] := by
              intro habs
              rw [habs, chunkRowsAux_nil] at hx
              simp at hx
            have hlt : tw < data.length := by
              have := List.length_pos.mpr hdropne
              omega
            have htww : tw = cs := by omega
            subst hr
            exact htww
          · rw [← hx] at hr
            exact ihDrop r hr
      · show tw + totalSize (chunkRowsAux ino cs fuel (pos + 1) (data.drop tw)) = data.length
        rw [ihTotal, hdrop]
        omega

/- ### The copy loop of `File.Read` -/

theorem totalSize_cons (c : ChunkRow) (rest : List ChunkRow) :
    totalSize (c :: rest) = c.size + totalSize rest := by
  simp [totalSize]

theorem chunksContent_cons (c : ChunkRow) (rest : List ChunkRow) :
    chunksContent (c :: rest) = c.data ++ chunksContent rest := by
  simp [chunksContent]

/-- Under well-formed rows the `size` column sums to the content length. -/
theorem totalSize_eq_content_length {rows : List ChunkRow} (h : WFrows rows) :
    totalSize rows = (chunksContent rows).length := by
  induction rows with
  | nil => rfl
  | cons c rest ih =>
    rw [totalSize_cons, chunksContent_cons, List.length_append,
      ih (fun r hr => h r (by simp [hr])), (h c (by simp)).1]

/-- The main loop invariant of `File.Read`: running the copy loop over
the rows the SQL filter selects (relative to base offset `t`) appends
exactly the requested slice of the content and advances the file offset
to its end.  `off0` is the offset the query was issued with, `fOff` the
current file offset, `acc` what was already copied
(`fOff = off0 + acc.length`). -/
theorem readLoop_spec (off0 outLen toRead : Nat) :
    ∀ (rows : List ChunkRow) (t fOff : Nat) (acc : List Byte),
      WFrows rows →
      t ≤ fOff →
      fOff = off0 + acc.length →
      acc.length ≤ toRead →
      toRead ≤ outLen →
      fOff + (toRead - acc.length) ≤ t + totalSize rows →
      (toRead < outLen → off0 + toRead = t + totalSize rows) →
      readLoop outLen toRead
          (((withStarts t rows).filter fun p =>
              decide (off0 < p.2 + p.1.size ∧ p.2 ≤ off0 + toRead)).map
            fun p => (p.1.data, p.2))
          fOff acc
        = (acc ++ ((chunksContent rows).drop (fOff - t)).take (toRead - acc.length),
           fOff + (toRead - acc.length)) := by
  intro rows
  induction rows with
  | nil =>
    intro t fOff acc _ h1 _ _ _ h2 _
    have hz : toRead - acc.length = 0 := by
      simp only [totalSize, List.map_nil, List.sum_nil] at h2
      omega
    simp [withStarts, readLoop, chunksContent, hz]
  | cons c rest ih =>
    intro t fOff acc hWF h1 h5 h3 h4 h2 h6
    have hcsize : c.size = c.data.length := (hWF c (by simp)).1
    have hTot : totalSize (c :: rest) = c.size + totalSize rest := totalSize_cons c rest
    have hContent : chunksContent (c :: rest) = c.data ++ chunksContent rest :=
      chunksContent_cons c rest
    have hWFrest : WFrows rest := fun r hr => hWF r (by simp [hr])
    have hT2 : t ≤ off0 + toRead := by omega
    rw [show withStarts t (c :: rest) = (c, t) :: withStarts (t + c.size) rest from rfl]
    by_cases hsel : off0 < t + c.size
    · -- the head row is selected by the query
      rw [List.filter_cons_of_pos (by simp [hsel, hT2]), List.map_cons]
      rw [show ∀ l fOff acc, readLoop outLen toRead ((c.data, t) :: l) fOff acc =
            (let src := c.data.drop (fOff - t);
             let numByte := min (outLen - acc.length) src.length;
             let acc1 := acc ++ src.take (outLen - acc.length);
             let fOff1 := fOff + numByte;
             if toRead ≤ acc1.length then (acc1, fOff1)
             else readLoop outLen toRead l fOff1 acc1) from fun l fOff acc => rfl]
      simp only []
      set src := c.data.drop (fOff - t) with hsrc
      have hsrcLen : src.length = c.data.length - (fOff - t) := by
        simp [hsrc, List.length_drop]
      set numByte := min (outLen - acc.length) src.length with hnum
      have htakeLen : (src.take (outLen - acc.length)).length = numByte := by
        simp [List.length_take, hnum, Nat.min_comm]
      have hacc1len : (acc ++ src.take (outLen - acc.length)).length = acc.length + numByte := by
        rw [List.length_append, htakeLen]
      have hnumLe : numByte ≤ toRead - acc.length := by
        rcases Nat.lt_or_ge toRead outLen with houtLen | houtLen
        · have hS := h6 houtLen
          rw [hTot] at hS
          omega
        · have : toRead = outLen := by omega
          omega
      by_cases hbr : toRead ≤ acc.length + numByte
      · -- the break: `copied >= toRead` after this row
        rw [if_pos (by rw [hacc1len]; exact hbr)]
        have hnumEq : numByte = toRead - acc.length := by omega
        have hdropSplit : (chunksContent (c :: rest)).drop (fOff - t)
            = src ++ (chunksContent rest).drop (fOff - t - c.data.length) := by
          rw [hContent, List.drop_append_eq_append_drop]
        have htakeSplit : ((chunksContent (c :: rest)).drop (fOff - t)).take (toRead - acc.length)
            = src.take (toRead - acc.length) := by
          rw [hdropSplit, List.take_append_eq_append_take]
          rcases le_or_lt (toRead - acc.length) src.length with hc2 | hc2
          · rw [Nat.sub_eq_zero_of_le hc2]
            simp
          · -- impossible: numByte = toRead - acc.length and numByte ≤ src.length
            exact absurd hnumEq (by omega)
        rw [htakeSplit]
        have hsame : src.take (outLen - acc.length) = src.take (toRead - acc.length) := by
          rcases le_or_lt (outLen - acc.length) src.length with hc2 | hc2
          · have : numByte = outLen - acc.length := by omega
            rw [← this, hnumEq]
          · have hsl : numByte = src.length := by omega
            rw [List.take_of_length_le (by omega), List.take_of_length_le (by omega)]
        rw [hsame, hnumEq]
      · -- no break: the whole rest of this row is consumed
        rw [if_neg (by rw [hacc1len]; exact hbr)]
        have hnumEq : numByte = src.length := by omega
        have hfull : src.take (outLen - acc.length) = src := by
          apply List.take_of_length_le
          omega
        rw [hfull]
        have hrec := ih (t + c.size) (fOff + numByte) (acc ++ src) hWFrest
          (by omega)
          (by rw [List.length_append]; omega)
          (by rw [List.length_append]; omega)
          h4
          (by rw [List.length_append]; rw [hTot] at h2; omega)
          (by intro hlt; have := h6 hlt; rw [hTot] at this; omega)
        rw [hrec]
        have hdropEq : (chunksContent rest).drop (fOff + numByte - (t + c.size))
            = (chunksContent rest).drop (fOff - t - c.data.length) := by
          have : fOff + numByte - (t + c.size) = fOff - t - c.data.length := by omega
          rw [this]
        have hgoal2 : fOff + numByte + (toRead - (acc ++ src).length)
            = fOff + (toRead - acc.length) := by
          rw [List.length_append]
          omega
        rw [hgoal2, hdropEq]
        have hdropSplit : (chunksContent (c :: rest)).drop (fOff - t)
            = src ++ (chunksContent rest).drop (fOff - t - c.data.length) := by
          rw [hContent, List.drop_append_eq_append_drop]
        rw [hdropSplit, List.take_append_eq_append_take]
        have hsrcTake : src.take (toRead - acc.length) = src :=
          List.take_of_length_le (by omega)
        rw [hsrcTake, List.append_assoc]
        have : toRead - acc.length - src.length = toRead - (acc ++ src).length := by
          rw [List.length_append]
          omega
        rw [this]
    · -- the head row ends at or before the query offset and is filtered out
      have hle : t + c.size ≤ off0 := by omega
      rw [List.filter_cons_of_neg (by simp; intro h; omega)]
      have hrec := ih (t + c.size) fOff acc hWFrest
        (by omega) h5 h3 h4
        (by rw [hTot] at h2; omega)
        (by intro hlt; have := h6 hlt; rw [hTot] at this; omega)
      rw [hrec]
      have hdropEq : (chunksContent (c :: rest)).drop (fOff - t)
          = (chunksContent rest).drop (fOff - (t + c.size)) := by
        rw [hContent, List.drop_append_eq_append_drop,
          List.drop_eq_nil_of_le (by omega)]
        have : fOff - t - c.data.length = fOff - (t + c.size) := by omega
        rw [this]
        rfl
      rw [hdropEq]

/-- `File.Read` on a position inside a well-formed file copies the
requested slice, returns its length, and advances the offset past it. -/
theorem fileRead_ok (db : DB) (f : File) (outLen : Nat)
    (hf : f.ftype = RegularFileType) (hcl : f.closed = false)
    (hWF : WFrows (fileChunks db f.inode))
    (hsize : f.size = totalSize (fileChunks db f.inode))
    (hoff : f.offset < f.size) :
    fileRead db f outLen =
      .ok (min (f.size - f.offset) outLen,
        ((chunksContent (fileChunks db f.inode)).drop f.offset).take
          (min (f.size - f.offset) outLen),
        { f with offset := f.offset + min (f.size - f.offset) outLen }) := by
  unfold fileRead
  rw [if_neg (by simp [hf]), if_neg (by simp [hcl]), if_neg (by omega)]
  have hloop := readLoop_spec f.offset outLen (min (f.size - f.offset) outLen)
    (fileChunks db f.inode) 0 f.offset []
    hWF (Nat.zero_le _) (by simp) (by simp) (Nat.min_le_right _ _)
    (by simp only [List.length_nil, Nat.sub_zero, Nat.zero_add]; omega)
    (by intro hlt
        simp only [Nat.zero_add]
        have : min (f.size - f.offset) outLen = f.size - f.offset := by omega
        omega)
  simp only [List.length_nil, Nat.sub_zero, List.nil_append] at hloop
  show Except.ok
      (min (f.size - f.offset) outLen,
        (readLoop outLen (min (f.size - f.offset) outLen)
            (selectChunks f.offset (min (f.size - f.offset) outLen) (fileChunks db f.inode))
            f.offset []).1,
        _) = _
  rw [show selectChunks f.offset (min (f.size - f.offset) outLen) (fileChunks db f.inode)
        = ((withStarts 0 (fileChunks db f.inode)).filter fun p =>
            decide (f.offset < p.2 + p.1.size ∧ p.2 ≤ f.offset + min (f.size - f.offset) outLen)).map
          (fun p => (p.1.data, p.2)) from rfl]
  rw [hloop]

/-- `File.Read` at or past the end of a regular file signals `io.EOF`. -/
theorem fileRead_past_end (db : DB) (f : File) (outLen : Nat)
    (hf : f.ftype = RegularFileType) (hcl : f.closed = false)
    (hoff : f.size ≤ f.offset) :
    fileRead db f outLen = .error .eof := by
  unfold fileRead
  rw [if_neg (by simp [hf]), if_neg (by simp [hcl]), if_pos hoff]

/-- After `File.Close`, `File.Read` on a regular-file handle fails. -/
theorem fileRead_after_close (db : DB) (f : File) (outLen : Nat)
    (hf : f.ftype = RegularFileType) :
    fileRead db (fileClose f) outLen = .error .fileClosed := by
  unfold fileRead fileClose
  rw [if_neg (by simp [hf])]
  rfl

/-- Repeatedly reading with a positive buffer until end-of-stream
returns the file content from the current offset. -/
theorem readUntilEOF_spec (db : DB) (bufLen : Nat) (hbuf : 1 ≤ bufLen) :
    ∀ (fuel : Nat) (f : File),
      f.ftype = RegularFileType → f.closed = false →
      WFrows (fileChunks db f.inode) →
      f.size = totalSize (fileChunks db f.inode) →
      f.size - f.offset < fuel →
      readUntilEOF db bufLen fuel f = (chunksContent (fileChunks db f.inode)).drop f.offset := by
  intro fuel
  induction fuel with
  | zero =>
    intro f _ _ _ _ h5
    exact absurd h5 (Nat.not_lt_zero _)
  | succ fuel ih =>
    intro f h1 h2 h3 h4 h5
    have hContentLen : (chunksContent (fileChunks db f.inode)).length = f.size := by
      rw [h4, totalSize_eq_content_length h3]
    by_cases hoff : f.size ≤ f.offset
    · rw [show readUntilEOF db bufLen (fuel + 1) f
          = (match fileRead db f bufLen with
             | .error _ => []
             | .ok (_, bytes, f1) => bytes ++ readUntilEOF db bufLen fuel f1) from rfl]
      rw [fileRead_past_end db f bufLen h1 h2 hoff]
      rw [List.drop_eq_nil_of_le (by omega)]
    · have hlt : f.offset < f.size := by omega
      have hstep : readUntilEOF db bufLen (fuel + 1) f
          = (List.take (min (f.size - f.offset) bufLen)
              (List.drop f.offset (chunksContent (fileChunks db f.inode))))
            ++ readUntilEOF db bufLen fuel
                { f with offset := f.offset + min (f.size - f.offset) bufLen } := by
        rw [show readUntilEOF db bufLen (fuel + 1) f
            = (match fileRead db f bufLen with
               | .error _ => []
               | .ok (_, bytes, f1) => bytes ++ readUntilEOF db bufLen fuel f1) from rfl]
        rw [fileRead_ok db f bufLen h1 h2 h3 h4 hlt]
      rw [hstep]
      have hrec := ih { f with offset := f.offset + min (f.size - f.offset) bufLen }
        h1 h2 h3 h4
        (by show f.size - (f.offset + min (f.size - f.offset) bufLen) < fuel
            omega)
      rw [hrec]
      show List.take (min (f.size - f.offset) bufLen)
            (List.drop f.offset (chunksContent (fileChunks db f.inode)))
          ++ List.drop (f.offset + min (f.size - f.offset) bufLen)
              (chunksContent (fileChunks db f.inode))
        = List.drop f.offset (chunksContent (fileChunks db f.inode))
      rw [← List.drop_drop]
      exact List.take_append_drop _ _

/- ### Invariants of the nodes table -/

/-- The invariants of the `files` table that the sqlite constraints and
the code maintain: no duplicate rows, the autoincrement counter is
positive, inodes are positive, strictly increasing below the counter,
parent references are below the counter, the inode is a key, and the
`(parent, fname)` unique index holds. -/
def NodesWF (db : DB) : Prop :=
  db.nodes.Nodup ∧
  1 ≤ db.nextInode ∧
  (∀ n ∈ db.nodes, 1 ≤ n.inode ∧ n.inode < db.nextInode ∧
    ∀ p ∈ n.parent.toList, p < db.nextInode) ∧
  ∀ n ∈ db.nodes, ∀ m ∈ db.nodes,
    (n.inode = m.inode → n = m) ∧ (n.parent = m.parent → n.fname = m.fname → n = m)

instance (db : DB) : Decidable (NodesWF db) := by
  unfold NodesWF
  infer_instance

/-- The path the probe phase of `addRegularFileNode` follows and the
tests it makes, as a predicate: from node `parent`, each component in
turn resolves to an existing child, all intermediate ones directories,
the final one a regular file with inode `ino`. -/
def resolvesFile (db : DB) : Nat → List Str → Nat → Prop
  | _, [], _ => False
  | parent, [c], ino =>
    ∃ nd, lookupChild db parent c = some nd ∧
      nd.ftype = RegularFileType ∧ nd.inode = ino
  | parent, c :: rest, ino =>
    ∃ nd, lookupChild db parent c = some nd ∧
      nd.ftype = DirectoryType ∧ resolvesFile db nd.inode rest ino

theorem lookupChild_mem {db : DB} {parent : Nat} {c : Str} {nd : Node}
    (h : lookupChild db parent c = some nd) :
    nd ∈ db.nodes ∧ nd.parent = some parent ∧ nd.fname = c := by
  unfold lookupChild at h
  have hmem := List.mem_of_find?_eq_some h
  have hp := List.find?_some h
  simp only [decide_eq_true_eq] at hp
  exact ⟨hmem, hp.1, hp.2⟩

theorem lookupChild_eq_none {db : DB} {parent : Nat} {c : Str} :
    lookupChild db parent c = none ↔
      ∀ m ∈ db.nodes, ¬(m.parent = some parent ∧ m.fname = c) := by
  unfold lookupChild
  rw [List.find?_eq_none]
  constructor
  · intro h m hm
    have := h m hm
    simpa using this
  · intro h m hm
    simpa using h m hm

/-- `lookupChild` only looks at the nodes table. -/
theorem lookupChild_congr {db db2 : DB} (h : db.nodes = db2.nodes) :
    ∀ parent c, lookupChild db parent c = lookupChild db2 parent c := by
  intro parent c
  unfold lookupChild
  rw [h]

theorem resolvesFile_congr {db db2 : DB} (h : db.nodes = db2.nodes) :
    ∀ comps parent ino, resolvesFile db parent comps ino → resolvesFile db2 parent comps ino := by
  intro comps
  induction comps with
  | nil => intro parent ino hres; exact absurd hres (by simp [resolvesFile])
  | cons c rest ih =>
    intro parent ino hres
    cases rest with
    | nil =>
      obtain ⟨nd, h1, h2, h3⟩ := hres
      exact ⟨nd, by rw [← lookupChild_congr h]; exact h1, h2, h3⟩
    | cons c2 rest2 =>
      obtain ⟨nd, h1, h2, h3⟩ := hres
      exact ⟨nd, by rw [← lookupChild_congr h]; exact h1, h2, ih _ _ h3⟩

/-- A hit still hits after the nodes table is extended on the right
(`find?` scans in insertion order). -/
theorem lookupChild_extend {db db2 : DB} {ext : List Node}
    (h : db2.nodes = db.nodes ++ ext) {parent : Nat} {c : Str} {nd : Node}
    (hl : lookupChild db parent c = some nd) :
    lookupChild db2 parent c = some nd := by
  unfold lookupChild at hl ⊢
  rw [h, List.find?_append, hl]
  rfl

theorem resolvesFile_extend {db db2 : DB} {ext : List Node}
    (h : db2.nodes = db.nodes ++ ext) :
    ∀ comps parent ino, resolvesFile db parent comps ino → resolvesFile db2 parent comps ino := by
  intro comps
  induction comps with
  | nil => intro parent ino hres; exact absurd hres (by simp [resolvesFile])
  | cons c rest ih =>
    intro parent ino hres
    cases rest with
    | nil =>
      obtain ⟨nd, h1, h2, h3⟩ := hres
      exact ⟨nd, lookupChild_extend h h1, h2, h3⟩
    | cons c2 rest2 =>
      obtain ⟨nd, h1, h2, h3⟩ := hres
      exact ⟨nd, lookupChild_extend h h1, h2, ih _ _ h3⟩

/-- Resolution implies the `namei` walk succeeds with the file's inode
and the regular-file type, whatever the initial accumulator. -/
theorem resolvesFile_nameiWalk {db : DB} :
    ∀ comps parent ino acc, resolvesFile db parent comps ino →
      nameiWalk db parent acc comps = .ok (ino, RegularFileType) := by
  intro comps
  induction comps with
  | nil => intro parent ino acc hres; exact absurd hres (by simp [resolvesFile])
  | cons c rest ih =>
    intro parent ino acc hres
    cases rest with
    | nil =>
      obtain ⟨nd, h1, h2, h3⟩ := hres
      unfold nameiWalk
      rw [h1]
      unfold nameiWalk
      rw [h3, h2]
    | cons c2 rest2 =>
      obtain ⟨nd, h1, h2, h3⟩ := hres
      unfold nameiWalk
      rw [h1]
      exact ih _ _ _ h3

/- Explicit equations for `addRegularFileNode`. -/

theorem addRFN_nil (db : DB) (parent : Nat) (sm : Bool) (done : List Str) :
    addRegularFileNode db parent sm done [] = .ok (parent, db) := rfl

theorem addRFN_probe_hit {db : DB} {parent : Nat} {c : Str} {nd : Node}
    (done : List Str) (rest : List Str) (h : lookupChild db parent c = some nd) :
    addRegularFileNode db parent true done (c :: rest) =
      if (rest ≠ [] ∧ nd.ftype ≠ DirectoryType) ∨ (rest = [] ∧ nd.ftype ≠ RegularFileType) then
        .error (.incorrectType ('/' :: joinSlash (done ++ [c])) nd.ftype)
      else addRegularFileNode db nd.inode true (done ++ [c]) rest := by
  conv =>
    lhs
    unfold addRegularFileNode
  rw [if_pos rfl, h]

theorem addRFN_probe_miss {db : DB} {parent : Nat} {c : Str}
    (done : List Str) (rest : List Str) (h : lookupChild db parent c = none) :
    addRegularFileNode db parent true done (c :: rest) =
      addRegularFileNode db parent false done (c :: rest) := by
  conv =>
    lhs
    unfold addRegularFileNode
  conv =>
    rhs
    unfold addRegularFileNode
  rw [if_pos rfl, h]
  rfl

theorem addRFN_insert_step (db : DB) (parent : Nat) (done : List Str) (c : Str)
    (rest : List Str) :
    addRegularFileNode db parent false done (c :: rest) =
      addRegularFileNode (insertNode db c parent (compType (rest = []))).2
        (insertNode db c parent (compType (rest = []))).1 false (done ++ [c]) rest := rfl

/-- Resolution implies the probe phase of `addRegularFileNode` walks
the whole path without inserting anything and returns the file's
inode. -/
theorem resolvesFile_addRFN {db : DB} :
    ∀ comps parent done ino, resolvesFile db parent comps ino →
      addRegularFileNode db parent true done comps = .ok (ino, db) := by
  intro comps
  induction comps with
  | nil => intro parent done ino hres; exact absurd hres (by simp [resolvesFile])
  | cons c rest ih =>
    intro parent done ino hres
    cases rest with
    | nil =>
      obtain ⟨nd, h1, h2, h3⟩ := hres
      rw [addRFN_probe_hit done [] h1]
      rw [if_neg (by simp [h2, RegularFileType, DirectoryType])]
      rw [addRFN_nil, h3]
    | cons c2 rest2 =>
      obtain ⟨nd, h1, h2, h3⟩ := hres
      rw [addRFN_probe_hit done (c2 :: rest2) h1]
      rw [if_neg (by simp [h2, RegularFileType, DirectoryType])]
      exact ih _ _ _ h3

/-- Inserting a fresh child under an existing parent (with no sibling
of that name, as the unique index demands) preserves the invariants. -/
theorem insertNode_WF {db : DB} {c : Str} {parent : Nat} {t : Str}
    (h : NodesWF db) (hp : parent < db.nextInode)
    (hnone : lookupChild db parent c = none) :
    NodesWF (insertNode db c parent t).2 := by
  obtain ⟨hnodup, hone, hbounds, hinj⟩ := h
  have hnw : (insertNode db c parent t).2.nodes
      = db.nodes ++ [⟨db.nextInode, c, some parent, t⟩] := rfl
  have hnx : (insertNode db c parent t).2.nextInode = db.nextInode + 1 := rfl
  have hnoneAll := lookupChild_eq_none.mp hnone
  refine ⟨?_, ?_, ?_, ?_⟩
  · rw [hnw]
    rw [List.nodup_append]
    refine ⟨hnodup, by simp, ?_⟩
    intro a ha hb
    simp only [List.mem_singleton] at hb
    subst hb
    have := (hbounds _ ha).2.1
    simp at this
  · rw [hnx]; omega
  · intro n hn
    rw [hnw] at hn
    rw [hnx]
    rcases List.mem_append.mp hn with hn | hn
    · obtain ⟨h1, h2, h3⟩ := hbounds n hn
      exact ⟨h1, by omega, fun p hp2 => by have := h3 p hp2; omega⟩
    · simp only [List.mem_singleton] at hn
      subst hn
      refine ⟨by simpa using hone, by simp, ?_⟩
      intro p hp2
      simp only [Option.toList_some, List.mem_singleton] at hp2
      subst hp2
      omega
  · intro n hn m hm
    rw [hnw] at hn hm
    rcases List.mem_append.mp hn with hn | hn <;> rcases List.mem_append.mp hm with hm | hm
    · exact hinj n hn m hm
    · simp only [List.mem_singleton] at hm
      subst hm
      constructor
      · intro heq
        have := (hbounds n hn).2.1
        simp only [] at heq
        omega
      · intro hpeq hfeq
        exact absurd ⟨hpeq, hfeq⟩ (hnoneAll n hn)
    · simp only [List.mem_singleton] at hn
      subst hn
      constructor
      · intro heq
        have := (hbounds m hm).2.1
        simp only [] at heq
        omega
      · intro hpeq hfeq
        exact absurd ⟨hpeq.symm, hfeq.symm⟩ (hnoneAll m hm)
    · simp only [List.mem_singleton] at hn hm
      subst hn
      subst hm
      exact ⟨fun _ => rfl, fun _ _ => rfl⟩

/-- The creation phase of `addRegularFileNode`: after the first miss,
every remaining component is inserted fresh; the walk succeeds, extends
the table on the right, keeps the invariants, and the new path resolves
to the returned inode. -/
theorem addRFN_insert_spec :
    ∀ (rest : List Str) (c : Str) (db : DB) (parent : Nat) (done : List Str),
      NodesWF db → parent < db.nextInode →
      lookupChild db parent c = none →
      ∃ ino db2 ext,
        addRegularFileNode db parent false done (c :: rest) = .ok (ino, db2) ∧
        NodesWF db2 ∧
        db2.chunks = db.chunks ∧
        db2.nodes = db.nodes ++ ext ∧
        db.nextInode ≤ db2.nextInode ∧
        ino < db2.nextInode ∧
        resolvesFile db2 parent (c :: rest) ino := by
  intro rest
  induction rest with
  | nil =>
    intro c db parent done hWF hp hnone
    rw [addRFN_insert_step, addRFN_nil]
    refine ⟨db.nextInode, _, [⟨db.nextInode, c, some parent,
      compType (decide (([] : List Str) = []))⟩], rfl,
      insertNode_WF hWF hp hnone, rfl, rfl, Nat.le_succ _, Nat.lt_succ_self _, ?_⟩
    refine ⟨⟨db.nextInode, c, some parent, compType (decide (([] : List Str) = []))⟩, ?_, ?_, rfl⟩
    · show ((insertNode db c parent _).2.nodes).find? _ = _
      rw [show (insertNode db c parent (compType (decide (([] : List Str) = [])))).2.nodes
          = db.nodes ++ [⟨db.nextInode, c, some parent,
              compType (decide (([] : List Str) = []))⟩] from rfl]
      rw [List.find?_append, show db.nodes.find?
          (fun n => decide (n.parent = some parent ∧ n.fname = c)) = none from hnone]
      rw [List.find?_cons_of_pos _ (by simp)]
      rfl
    · show compType (decide (([] : List Str) = [])) = RegularFileType
      rfl
  | cons c2 rest2 ih =>
    intro c db parent done hWF hp hnone
    rw [addRFN_insert_step]
    have hTd : compType (decide ((c2 :: rest2) = ([] : List Str))) = DirectoryType := rfl
    set T := compType (decide ((c2 :: rest2) = ([] : List Str))) with hT
    have hfst : (insertNode db c parent T).1 = db.nextInode := rfl
    have hsnd : (insertNode db c parent T).2.nodes
        = db.nodes ++ [⟨db.nextInode, c, some parent, T⟩] := rfl
    have hWF1 : NodesWF (insertNode db c parent T).2 := insertNode_WF hWF hp hnone
    have hp1 : db.nextInode < (insertNode db c parent T).2.nextInode := Nat.lt_succ_self _
    have hnone1 : lookupChild (insertNode db c parent T).2 db.nextInode c2 = none := by
      rw [lookupChild_eq_none]
      intro m hm hcon
      rw [hsnd] at hm
      rcases List.mem_append.mp hm with hm | hm
      · have := (hWF.2.2.1 m hm).2.2
        rcases hcon with ⟨hcp, _⟩
        have := this db.nextInode (by rw [hcp]; simp)
        omega
      · simp only [List.mem_singleton] at hm
        subst hm
        rcases hcon with ⟨hcp, _⟩
        simp only [Option.some.injEq] at hcp
        omega
    obtain ⟨ino, db2, ext, hstep, hWF2, hchunks, hnodes, hle, hlt, hres⟩ :=
      ih c2 (insertNode db c parent T).2 db.nextInode (done ++ [c]) hWF1 hp1 hnone1
    refine ⟨ino, db2, ⟨db.nextInode, c, some parent, T⟩ :: ext, ?_, hWF2, hchunks, ?_, ?_, hlt, ?_⟩
    · rw [hfst]
      exact hstep
    · rw [hnodes, hsnd, List.append_assoc]
      rfl
    · have : (insertNode db c parent T).2.nextInode = db.nextInode + 1 := rfl
      omega
    · refine ⟨⟨db.nextInode, c, some parent, T⟩, ?_, hTd, ?_⟩
      · show db2.nodes.find? _ = _
        rw [hnodes, hsnd, List.append_assoc, List.find?_append,
          show db.nodes.find? (fun n => decide (n.parent = some parent ∧ n.fname = c))
            = none from hnone]
        rw [show (([⟨db.nextInode, c, some parent, T⟩] : List Node) ++ ext)
            = ⟨db.nextInode, c, some parent, T⟩ :: ext from rfl]
        rw [List.find?_cons_of_pos _ (by simp)]
        rfl
      · exact hres

/-- The whole two-phase walk of `addRegularFileNode`: on success the
store is extended on the right (possibly not at all), the invariants
hold, and the path resolves to the returned inode as a regular file. -/
theorem addRFN_probe_spec :
    ∀ (comps : List Str) (db : DB) (parent : Nat) (done : List Str) (ino : Nat) (db2 : DB),
      NodesWF db → parent < db.nextInode → comps ≠ [] →
      addRegularFileNode db parent true done comps = .ok (ino, db2) →
      NodesWF db2 ∧ db2.chunks = db.chunks ∧
      (∃ ext, db2.nodes = db.nodes ++ ext) ∧
      db.nextInode ≤ db2.nextInode ∧
      ino < db2.nextInode ∧
      resolvesFile db2 parent comps ino := by
  intro comps
  induction comps with
  | nil => intro db parent done ino db2 _ _ hne _; exact absurd rfl hne
  | cons c rest ih =>
    intro db parent done ino db2 hWF hp _ hstep
    cases hl : lookupChild db parent c with
    | none =>
      rw [addRFN_probe_miss done rest hl] at hstep
      obtain ⟨ino2, db3, ext, heq, hWF2, hchunks, hnodes, hle, hlt, hres⟩ :=
        addRFN_insert_spec rest c db parent done hWF hp hl
      rw [heq] at hstep
      simp only [Except.ok.injEq, Prod.mk.injEq] at hstep
      obtain ⟨h1, h2⟩ := hstep
      subst h1
      subst h2
      exact ⟨hWF2, hchunks, ⟨ext, hnodes⟩, hle, hlt, hres⟩
    | some nd =>
      rw [addRFN_probe_hit done rest hl] at hstep
      by_cases hcond : (rest ≠ [] ∧ nd.ftype ≠ DirectoryType) ∨
          (rest = [] ∧ nd.ftype ≠ RegularFileType)
      · rw [if_pos hcond] at hstep
        exact absurd hstep (by simp)
      · rw [if_neg hcond] at hstep
        have hmem := lookupChild_mem hl
        have hndlt : nd.inode < db.nextInode := (hWF.2.2.1 nd hmem.1).2.1
        cases rest with
        | nil =>
          rw [addRFN_nil] at hstep
          simp only [Except.ok.injEq, Prod.mk.injEq] at hstep
          obtain ⟨h1, h2⟩ := hstep
          subst h1
          subst h2
          have hft : nd.ftype = RegularFileType := by
            by_contra hft
            exact hcond (Or.inr ⟨rfl, hft⟩)
          exact ⟨hWF, rfl, ⟨[], by simp⟩, Nat.le_refl _, hndlt, nd, hl, hft, rfl⟩
        | cons c2 rest2 =>
          have hft : nd.ftype = DirectoryType := by
            by_contra hft
            exact hcond (Or.inl ⟨by simp, hft⟩)
          obtain ⟨hWF2, hchunks, ⟨ext, hnodes⟩, hle, hlt, hres⟩ :=
            ih db nd.inode (done ++ [c]) ino db2 hWF hndlt (by simp) hstep
          exact ⟨hWF2, hchunks, ⟨ext, hnodes⟩, hle, hlt, nd,
            lookupChild_extend hnodes hl, hft, hres⟩

/-- The rows of `chunkRows` are sorted by position (they sit at
consecutive positions). -/
theorem chunkRows_sorted (ino cs : Nat) (hcs : 1 ≤ cs) (data : List Byte) :
    List.Sorted (fun a b : ChunkRow => a.position ≤ b.position) (chunkRows ino cs data) := by
  have hpos := (chunkRowsAux_spec ino cs hcs data.length 0 data (Nat.le_refl _)).2.2.1
  have hpw : List.Pairwise (· ≤ ·) ((chunkRows ino cs data).map ChunkRow.position) := by
    rw [show (chunkRows ino cs data).map ChunkRow.position
        = List.range' 0 ((data.length + cs - 1) / cs) from hpos]
    exact List.pairwise_le_range' 0 _
  exact List.pairwise_map.mp hpw

/-- A store whose rows for `ino` are exactly `chunkRows` yields them,
already ordered, from the `ORDER BY position` query. -/
theorem fileChunks_of_filter {db2 : DB} {ino cs : Nat} (hcs : 1 ≤ cs) (data : List Byte)
    (hfilter : db2.chunks.filter (fun r => decide (r.inode = ino)) = chunkRows ino cs data) :
    fileChunks db2 ino = chunkRows ino cs data := by
  unfold fileChunks
  rw [hfilter]
  exact List.Sorted.insertionSort_eq (chunkRows_sorted ino cs hcs data)

theorem sumSizes_eq_totalSize (db2 : DB) (ino : Nat) :
    sumSizes db2 ino = totalSize (db2.chunks.filter fun r => decide (r.inode = ino)) := rfl

/-- A successful `UpsertFile`: the cleaned path resolves to some inode
whose chunk rows are exactly the freshly written ones, and the store
invariants are preserved. -/
theorem upsert_ok_spec (fs : FSH) (db : DB) (p : Str) (cs : Nat) (data : List Byte)
    (hWF : NodesWF db) (hroot : fs.rootInode < db.nextInode)
    (habs : isAbs p = false) (hcs : 1 ≤ cs) {db2 : DB}
    (hok : UpsertFile fs db p cs data = (none, db2)) :
    ∃ ino,
      resolvesFile db2 fs.rootInode (splitSlash (clean p)) ino ∧
      NodesWF db2 ∧ fs.rootInode < db2.nextInode ∧
      db2.chunks.filter (fun r => decide (r.inode = ino)) = chunkRows ino cs data := by
  unfold UpsertFile at hok
  rw [if_neg (by rw [habs]; exact Bool.false_ne_true)] at hok
  simp only [] at hok
  cases heq : addRegularFileNode db fs.rootInode true [] (splitSlash (clean p)) with
  | error e =>
    rw [heq] at hok
    exact absurd hok (by simp)
  | ok res =>
    obtain ⟨ino, txDb⟩ := res
    rw [heq] at hok
    simp only [Prod.mk.injEq] at hok
    obtain ⟨-, hdb2⟩ := hok
    obtain ⟨hWF2, hchunks, ⟨ext, hnodes⟩, hle, hlt, hres⟩ :=
      addRFN_probe_spec (splitSlash (clean p)) db fs.rootInode [] ino txDb hWF hroot
        (splitSlash_ne_nil _) heq
    have hinode : ∀ r ∈ chunkRows ino cs data, r.inode = ino := fun r hr =>
      ((chunkRowsAux_spec ino cs hcs data.length 0 data (Nat.le_refl _)).2.2.2.2.1 r hr).1
    refine ⟨ino, ?_, ?_, ?_, ?_⟩
    · exact resolvesFile_congr (show txDb.nodes = db2.nodes from by rw [← hdb2]) _ _ _ hres
    · rw [← hdb2]
      exact hWF2
    · rw [← hdb2]
      show fs.rootInode < txDb.nextInode
      omega
    · rw [← hdb2]
      show (txDb.chunks.filter (fun c => decide (c.inode ≠ ino))
          ++ chunkRows ino cs data).filter (fun r => decide (r.inode = ino))
        = chunkRows ino cs data
      rw [List.filter_append, List.filter_filter]
      rw [show (txDb.chunks.filter fun a => decide (a.inode = ino) && decide (a.inode ≠ ino))
          = [] from ?_]
      · rw [List.nil_append, List.filter_eq_self.mpr]
        intro r hr
        simp [hinode r hr]
      · rw [List.filter_eq_nil_iff]
        intro r _
        by_cases h : r.inode = ino <;> simp [h]

theorem stripDotSlash_eq {q : Str} (h : ∀ rest, q ≠ '.' :: '/' :: rest) :
    stripDotSlash q = q := by
  unfold stripDotSlash
  split
  · next rest => exact absurd rfl (h rest)
  · rfl

/-- `Open` on a valid path (other than `"."`) that resolves to a
regular file returns a fresh cursor on it. -/
theorem open_resolved (fs : FSH) (db2 : DB) (q : Str) (ino : Nat)
    (hval : validPath q = true) (hq : q ≠ ['.'])
    (hres : resolvesFile db2 fs.rootInode (splitSlash q) ino) :
    Open fs db2 q = .ok ⟨RegularFileType, q, ino, 0, sumSizes db2 ino, false, false⟩ := by
  unfold Open
  rw [if_neg (not_not_intro hval)]
  simp only []
  rw [stripDotSlash_eq (valid_no_dotSlash hval hq), (clean_of_valid hval hq).2]
  unfold namei
  rw [if_neg (by rw [valid_not_abs hval]; exact Bool.false_ne_true), if_neg hq]
  rw [resolvesFile_nameiWalk _ _ _ _ hres]

/-- The round-trip core: a successful `UpsertFile` through path `p`
makes `Open` on any valid spelling `q` of the cleaned path return a
regular-file cursor of size `len data`, and reading it to end-of-stream
returns `data`. -/
theorem roundtrip_core (fs : FSH) (db : DB) (p q : Str) (cs : Nat) (data : List Byte)
    (bufLen fuel : Nat) {db2 : DB}
    (hWF : NodesWF db) (hroot : fs.rootInode < db.nextInode)
    (habs : isAbs p = false) (hcs : 1 ≤ cs)
    (hval : validPath q = true) (hq : q ≠ ['.'])
    (hcomps : splitSlash q = splitSlash (clean p))
    (hok : UpsertFile fs db p cs data = (none, db2))
    (hbuf : 1 ≤ bufLen) (hfuel : data.length < fuel) :
    ∃ ino,
      Open fs db2 q = .ok ⟨RegularFileType, q, ino, 0, data.length, false, false⟩ ∧
      readUntilEOF db2 bufLen fuel ⟨RegularFileType, q, ino, 0, data.length, false, false⟩
        = data ∧
      resolvesFile db2 fs.rootInode (splitSlash q) ino := by
  obtain ⟨ino, hres, hWF2, hroot2, hfilter⟩ :=
    upsert_ok_spec fs db p cs data hWF hroot habs hcs hok
  rw [← hcomps] at hres
  have hspec := chunkRowsAux_spec ino cs hcs data.length 0 data (Nat.le_refl _)
  have hfc : fileChunks db2 ino = chunkRows ino cs data := fileChunks_of_filter hcs data hfilter
  have hsum : sumSizes db2 ino = data.length := by
    rw [sumSizes_eq_totalSize, hfilter]
    exact hspec.2.2.2.2.2.2
  have hopen := open_resolved fs db2 q ino hval hq hres
  rw [hsum] at hopen
  refine ⟨ino, hopen, ?_, hres⟩
  have hWFrows : WFrows (fileChunks db2 ino) := by
    rw [hfc]
    exact hspec.2.2.2.1
  have hread := readUntilEOF_spec db2 bufLen hbuf fuel
    ⟨RegularFileType, q, ino, 0, data.length, false, false⟩ rfl rfl hWFrows
    (by show data.length = totalSize (fileChunks db2 ino)
        rw [hfc]
        exact hspec.2.2.2.2.2.2.symm)
    (by show data.length - 0 < fuel
        omega)
  rw [hread]
  show List.drop 0 (chunksContent (fileChunks db2 ino)) = data
  rw [List.drop_zero, hfc]
  exact hspec.1

/- ### Directory enumeration -/

/-- All children of a directory, in ascending inode order: what the
first `ReadDir` query returns with cursor 0, as every inode is
positive. -/
def childrenSorted (db : DB) (ino : Nat) : List Node :=
  List.insertionSort (fun a b => a.inode ≤ b.inode)
    (db.nodes.filter fun n => decide (n.parent = some ino))

instance : IsTotal Node (fun a b => a.inode ≤ b.inode) := ⟨fun a b => Nat.le_total _ _⟩

instance : IsTrans Node (fun a b => a.inode ≤ b.inode) := ⟨fun _ _ _ => Nat.le_trans⟩

instance : IsAntisymm Node (fun a b => a.inode < b.inode) :=
  ⟨fun a b h1 h2 => absurd h1 (by omega)⟩

/-- Sorting any selection of table rows by inode yields strictly
increasing inodes, as the inode is a key. -/
theorem sortInodes_pairwise_lt (db : DB) (hWF : NodesWF db) (pred : Node → Bool) :
    List.Pairwise (fun a b : Node => a.inode < b.inode)
      (List.insertionSort (fun a b : Node => a.inode ≤ b.inode) (db.nodes.filter pred)) := by
  have hperm : List.Perm
      (List.insertionSort (fun a b : Node => a.inode ≤ b.inode) (db.nodes.filter pred))
      (db.nodes.filter pred) := List.perm_insertionSort _ _
  have hsub : ∀ n ∈ List.insertionSort (fun a b : Node => a.inode ≤ b.inode)
      (db.nodes.filter pred), n ∈ db.nodes := by
    intro n hn
    exact List.mem_of_mem_filter (hperm.mem_iff.mp hn)
  have hlnodup : (db.nodes.filter pred).Nodup :=
    List.Sublist.nodup (List.filter_sublist _) hWF.1
  have hnodup := hperm.symm.nodup hlnodup
  have hsorted := List.sorted_insertionSort (fun a b : Node => a.inode ≤ b.inode)
    (db.nodes.filter pred)
  have hand := List.Pairwise.and hsorted hnodup
  refine List.Pairwise.imp_of_mem ?_ hand
  intro a b ha hb hab
  obtain ⟨hle, hneq⟩ := hab
  rcases Nat.lt_or_ge a.inode b.inode with h | h
  · exact h
  · have heq : a.inode = b.inode := by omega
    exact absurd ((hWF.2.2.2 a (hsub a ha) b (hsub b hb)).1 heq) hneq

/-- The query with cursor `cur` returns exactly the suffix of the
all-children listing past `cur`. -/
theorem childrenFrom_eq_filter (db : DB) (ino : Nat) (hWF : NodesWF db) (cur : Nat) :
    childrenFrom db ino cur
      = (childrenSorted db ino).filter fun n => decide (cur < n.inode) := by
  refine List.eq_of_perm_of_sorted (r := fun a b : Node => a.inode < b.inode) ?_ ?_ ?_
  · refine List.Perm.trans (List.perm_insertionSort _ _) ?_
    have hstep : db.nodes.filter (fun n => decide (n.parent = some ino ∧ cur < n.inode))
        = (db.nodes.filter fun n => decide (n.parent = some ino)).filter
            (fun n => decide (cur < n.inode)) := by
      rw [List.filter_filter]
      apply List.filter_congr
      intro a _
      rw [Bool.decide_and, Bool.and_comm]
    rw [hstep]
    exact (List.Perm.filter _ (List.perm_insertionSort _ _).symm)
  · exact sortInodes_pairwise_lt db hWF _
  · exact List.Pairwise.sublist (List.filter_sublist _) (sortInodes_pairwise_lt db hWF _)

/-- Filtering a strictly increasing list for inodes past a member keeps
exactly the part after that member. -/
theorem filter_gt_pivot {P B : List Node} {x : Node}
    (hpw : List.Pairwise (fun a b : Node => a.inode < b.inode) (P ++ x :: B)) :
    (P ++ x :: B).filter (fun n => decide (x.inode < n.inode)) = B := by
  rw [List.filter_append]
  rw [List.pairwise_append] at hpw
  obtain ⟨hP, hxB, hcross⟩ := hpw
  have hPnil : P.filter (fun n => decide (x.inode < n.inode)) = [] := by
    rw [List.filter_eq_nil_iff]
    intro p hp
    have := hcross p hp x (by simp)
    simp only [decide_eq_true_eq]
    omega
  rw [hPnil, List.nil_append]
  rw [List.filter_cons_of_neg (by simp)]
  apply List.filter_eq_self.mpr
  intro b hb
  have := (List.pairwise_cons.mp hxB).1 b hb
  simp [this]

/-- The unfolding of `ReadDir` on an open directory cursor. -/
theorem ReadDir_reduce (db : DB) (f : File) (n : Int)
    (hft : f.ftype = DirectoryType) (heof : f.eof = false) :
    ReadDir db f n =
      (.ok ((if 0 < n then (childrenFrom db f.inode f.offset).take n.toNat
             else childrenFrom db f.inode f.offset).map (entryOf db)),
       { f with
          offset := match (if 0 < n then (childrenFrom db f.inode f.offset).take n.toNat
                          else childrenFrom db f.inode f.offset).getLast? with
            | some last => last.inode
            | none => f.offset,
          eof := (if 0 < n then (childrenFrom db f.inode f.offset).take n.toNat
                  else childrenFrom db f.inode f.offset).isEmpty }) := by
  unfold ReadDir
  rw [if_neg (by simp [hft]), if_neg (by rw [heof]; exact Bool.false_ne_true)]

/-- The paginated enumeration: when the remaining children are the
suffix `drop m` of the full listing and `cnt` is the ceiling of
`(N - m) / k`, the next `cnt` calls of page size `k` return exactly
those children in order, every page non-empty, and leave an open (not
yet end-flagged) directory cursor with no children left to return. -/
theorem readDirPages_spec (db : DB) (ino : Nat) (hWF : NodesWF db) (kN : Nat) (hk : 1 ≤ kN) :
    ∀ (cnt : Nat) (m : Nat) (f : File),
      f.ftype = DirectoryType → f.inode = ino → f.eof = false →
      childrenFrom db ino f.offset = (childrenSorted db ino).drop m →
      cnt = ((childrenSorted db ino).length - m + kN - 1) / kN →
      ((readDirPages db (kN : Int) cnt f).1.flatten
          = ((childrenSorted db ino).drop m).map (entryOf db)) ∧
      (∀ pg ∈ (readDirPages db (kN : Int) cnt f).1, pg ≠ []) ∧
      (readDirPages db (kN : Int) cnt f).2.ftype = DirectoryType ∧
      (readDirPages db (kN : Int) cnt f).2.inode = ino ∧
      (readDirPages db (kN : Int) cnt f).2.eof = false ∧
      childrenFrom db ino (readDirPages db (kN : Int) cnt f).2.offset = [] := by
  intro cnt
  induction cnt with
  | zero =>
    intro m f hft hino heof hrem hcnt
    have hm : (childrenSorted db ino).length - m = 0 := by
      by_contra h
      have h1 : kN ≤ (childrenSorted db ino).length - m + kN - 1 := by omega
      have := (Nat.one_le_div_iff (by omega)).mpr h1
      omega
    have hdropnil : (childrenSorted db ino).drop m = [] :=
      List.drop_eq_nil_of_le (by omega)
    refine ⟨?_, ?_, hft, hino, heof, ?_⟩
    · show ([] : List (List DirEntry)).flatten = _
      rw [hdropnil]
      rfl
    · intro pg hpg
      exact absurd hpg (List.not_mem_nil pg)
    · show childrenFrom db ino f.offset = []
      rw [hrem, hdropnil]
  | succ cnt ih =>
    intro m f hft hino heof hrem hcnt
    set S := childrenSorted db ino with hS
    set N := S.length with hN
    have hNm : 1 ≤ N - m := by
      by_contra h
      have h0 : N - m = 0 := by omega
      rw [h0, ceil_div_zero hk] at hcnt
      omega
    set R := S.drop m with hR
    have hRlen : R.length = N - m := by
      rw [hR, List.length_drop]
    have hRne : R ≠ [] := by
      intro h
      rw [h] at hRlen
      simp only [List.length_nil] at hRlen
      omega
    set j := min kN (N - m) with hj
    have hj1 : 1 ≤ j := by omega
    set page := R.take kN with hpage
    have hpagelen : page.length = j := by
      rw [hpage, List.length_take]
      omega
    have hpagene : page ≠ [] := by
      intro h
      rw [h] at hpagelen
      simp only [List.length_nil] at hpagelen
      omega
    have hlastEq : page.getLast? = some (page.getLast hpagene) :=
      List.getLast?_eq_getLast _ _
    set x := page.getLast hpagene with hx
    have hdropj : S.drop (m + j) = R.drop kN := by
      rw [hR, List.drop_drop]
      rcases le_or_lt kN (N - m) with hc | hc
      · rw [show m + j = m + kN from by omega]
      · rw [@List.drop_eq_nil_of_le _ S (m + j) (by rw [← hN]; omega),
          @List.drop_eq_nil_of_le _ S (m + kN) (by rw [← hN]; omega)]
    have hdecomp : S = (S.take m ++ page.dropLast) ++ x :: R.drop kN := by
      rw [List.append_assoc]
      rw [show x :: R.drop kN = [x] ++ R.drop kN from rfl]
      rw [← List.append_assoc page.dropLast]
      rw [List.dropLast_concat_getLast hpagene]
      rw [hpage, List.take_append_drop]
      rw [hR, List.take_append_drop]
    have hquery : childrenFrom db f.inode f.offset = R := by
      rw [hino]
      exact hrem
    have hpos : (0 : Int) < (kN : Int) := Int.natCast_pos.mpr (by omega)
    have hstep := ReadDir_reduce db f (kN : Int) hft heof
    rw [if_pos hpos, Int.toNat_ofNat, hquery, ← hpage, hlastEq] at hstep
    rw [show page.isEmpty = false from List.isEmpty_eq_false.mpr hpagene] at hstep
    have hnewrem : childrenFrom db ino x.inode = S.drop (m + j) := by
      rw [childrenFrom_eq_filter db ino hWF x.inode, ← hS]
      have hpw := sortInodes_pairwise_lt db hWF
        (fun n => decide (n.parent = some ino))
      rw [show List.insertionSort (fun a b : Node => a.inode ≤ b.inode)
          (db.nodes.filter fun n => decide (n.parent = some ino)) = S from rfl] at hpw
      rw [hdecomp] at hpw
      conv =>
        lhs
        rw [hdecomp]
      rw [filter_gt_pivot hpw]
      rw [hdropj]
    have hcnt2 : cnt = (N - (m + j) + kN - 1) / kN := by
      rcases le_or_lt kN (N - m) with hc | hc
      · have hje : j = kN := by omega
        rw [ceil_div_step hk hc] at hcnt
        rw [show N - (m + j) = N - m - kN from by omega]
        omega
      · have h0 : N - (m + j) = 0 := by omega
        rw [h0, ceil_div_zero hk]
        rw [show (N - m + kN - 1) / kN = 1 from ceil_div_small hNm (by omega)] at hcnt
        omega
    have hmain := ih (m + j) { f with offset := x.inode, eof := false }
      hft hino rfl hnewrem hcnt2
    have hunf : readDirPages db (kN : Int) (cnt + 1) f
        = ((page.map (entryOf db))
            :: (readDirPages db (kN : Int) cnt { f with offset := x.inode, eof := false }).1,
           (readDirPages db (kN : Int) cnt { f with offset := x.inode, eof := false }).2) := by
      show (match ReadDir db f (kN : Int) with
            | (.ok es, f1) =>
              (es :: (readDirPages db (kN : Int) cnt f1).1,
               (readDirPages db (kN : Int) cnt f1).2)
            | (.error _, f1) => ([], f1))
          = _
      rw [hstep]
    obtain ⟨ih1, ih2, ih3, ih4, ih5, ih6⟩ := hmain
    rw [hunf]
    refine ⟨?_, ?_, ih3, ih4, ih5, ih6⟩
    · show (page.map (entryOf db))
          ++ (readDirPages db (kN : Int) cnt { f with offset := x.inode, eof := false }).1.flatten
        = R.map (entryOf db)
      rw [ih1, hdropj, ← List.map_append]
      rw [hpage, List.take_append_drop]
    · intro pg hpg
      rcases List.mem_cons.mp hpg with hpg | hpg
      · subst hpg
        intro habs
        rw [List.map_eq_nil_iff] at habs
        exact hpagene habs
      · exact ih2 pg hpg

/-- `ReadDir` once the end flag is set: a positive page size signals
end-of-stream; a non-positive one returns an empty result without
error.  The cursor is unchanged. -/
theorem ReadDir_after_eof (db : DB) (f : File) (n : Int)
    (hft : f.ftype = DirectoryType) (heof : f.eof = true) :
    ReadDir db f n = (if 0 < n then (.error .eof, f) else (.ok [], f)) := by
  unfold ReadDir
  rw [if_neg (by simp [hft]), if_pos (by rw [heof])]

/-- With cursor 0 the query returns every child: inodes are positive. -/
theorem childrenFrom_zero (db : DB) (ino : Nat) (hWF : NodesWF db) :
    childrenFrom db ino 0 = childrenSorted db ino := by
  rw [childrenFrom_eq_filter db ino hWF 0]
  apply List.filter_eq_self.mpr
  intro n hn
  have hmem : n ∈ db.nodes :=
    List.mem_of_mem_filter ((List.perm_insertionSort _ _).mem_iff.mp hn)
  have := (hWF.2.2.1 n hmem).1
  simp only [decide_eq_true_eq]
  omega

/-- The call that discovers exhaustion: no further children exist, so a
positive-page-size `ReadDir` returns an empty result without error and
sets the end flag, leaving the cursor where it was. -/
theorem ReadDir_exhausted (db : DB) (f : File) (n : Int)
    (hft : f.ftype = DirectoryType) (heof : f.eof = false)
    (hnil : childrenFrom db f.inode f.offset = []) (hn : 0 < n) :
    ReadDir db f n = (.ok [], { f with eof := true }) := by
  rw [ReadDir_reduce db f n hft heof, if_pos hn, hnil, List.take_nil]
  rfl

/-- A second `UpsertFile` of a path that already resolves to a regular
file reuses its inode and replaces exactly its chunk rows. -/
theorem upsert_resolved_spec (fs : FSH) (db1 : DB) (p : Str) (cs : Nat) (data : List Byte)
    (habs : isAbs p = false) {ino : Nat}
    (hres : resolvesFile db1 fs.rootInode (splitSlash (clean p)) ino) :
    UpsertFile fs db1 p cs data =
      (none, { db1 with chunks := db1.chunks.filter (fun c => decide (c.inode ≠ ino))
                          ++ chunkRows ino cs data }) := by
  unfold UpsertFile
  rw [if_neg (by rw [habs]; exact Bool.false_ne_true)]
  simp only []
  rw [resolvesFile_addRFN _ _ _ _ hres]

/-- The read-only directory walk a conflicting upsert performs before
the offending component: every step a hit on a directory. -/
def walkDirs (db : DB) : Nat → List Str → Option Nat
  | parent, [] => some parent
  | parent, c :: rest =>
    (lookupChild db parent c).bind fun nd =>
      if nd.ftype = DirectoryType then walkDirs db nd.inode rest else none

/-- A type conflict at the component after `pre` makes the probe phase
fail with `IncorrectType` naming the offending sub-path. -/
theorem addRFN_conflict :
    ∀ (pre : List Str) (db : DB) (parent par : Nat) (done : List Str) (c : Str)
      (rest : List Str) (nd : Node),
      walkDirs db parent pre = some par →
      lookupChild db par c = some nd →
      ((rest ≠ [] ∧ nd.ftype ≠ DirectoryType) ∨ (rest = [] ∧ nd.ftype ≠ RegularFileType)) →
      addRegularFileNode db parent true done (pre ++ c :: rest)
        = .error (.incorrectType ('/' :: joinSlash ((done ++ pre) ++ [c])) nd.ftype) := by
  intro pre
  induction pre with
  | nil =>
    intro db parent par done c rest nd hwalk hhit hconf
    have hpar : par = parent := by
      simpa [walkDirs] using hwalk.symm
    subst hpar
    rw [List.nil_append, addRFN_probe_hit done rest hhit, if_pos hconf, List.append_nil]
  | cons p0 pre2 ih =>
    intro db parent par done c rest nd hwalk hhit hconf
    unfold walkDirs at hwalk
    cases hl : lookupChild db parent p0 with
    | none => rw [hl, Option.none_bind] at hwalk; exact absurd hwalk (by simp)
    | some ndp =>
      rw [hl, Option.some_bind] at hwalk
      by_cases hdir : ndp.ftype = DirectoryType
      · rw [if_pos hdir] at hwalk
        rw [List.cons_append, addRFN_probe_hit done (pre2 ++ c :: rest) hl]
        rw [if_neg (by
          intro hcon
          rcases hcon with ⟨_, hcon⟩ | ⟨hcon, _⟩
          · exact hcon hdir
          · exact absurd hcon (by simp))]
        rw [ih db ndp.inode par (done ++ [p0]) c rest nd hwalk hhit hconf]
        rw [show (done ++ [p0]) ++ pre2 = done ++ p0 :: pre2 from by
          rw [List.append_assoc]
          rfl]
      · rw [if_neg hdir] at hwalk
        exact absurd hwalk (by simp)

/-- Replacing the rows of `ino` leaves exactly the new rows under that
inode. -/
theorem filter_replaced (l : List ChunkRow) (ino cs : Nat) (hcs : 1 ≤ cs) (data : List Byte) :
    ((l.filter fun c => decide (c.inode ≠ ino)) ++ chunkRows ino cs data).filter
      (fun r => decide (r.inode = ino)) = chunkRows ino cs data := by
  have hinode : ∀ r ∈ chunkRows ino cs data, r.inode = ino := fun r hr =>
    ((chunkRowsAux_spec ino cs hcs data.length 0 data (Nat.le_refl _)).2.2.2.2.1 r hr).1
  rw [List.filter_append, List.filter_filter]
  rw [show (l.filter fun a => decide (a.inode = ino) && decide (a.inode ≠ ino)) = [] from ?_]
  · rw [List.nil_append, List.filter_eq_self.mpr]
    intro r hr
    simp [hinode r hr]
  · rw [List.filter_eq_nil_iff]
    intro r _
    by_cases h : r.inode = ino <;> simp [h]

deriving instance DecidableEq for Except

/- ### Concrete stores used by the witnesses and counterexamples -/

/-- The store after `UpsertFile("a/b", 4, [1,2,3])` on a fresh store. -/
def dbAB : DB := (UpsertFile initFS initDB ['a', '/', 'b'] 4 [1, 2, 3]).2

/-- The store after `UpsertFile("a/b", 2, [1])` on a fresh store. -/
def dbTC : DB := (UpsertFile initFS initDB ['a', '/', 'b'] 2 [1]).2

/-- The store after `UpsertFile("f", 3, [0..9])` on a fresh store; the
file has inode 2 and four chunks. -/
def dbRW : DB := (UpsertFile initFS initDB ['f'] 3 [0, 1, 2, 3, 4, 5, 6, 7, 8, 9]).2

/-- A store whose directory `d` (inode 2) has two children `x`, `y`. -/
def dbDir : DB :=
  (UpsertFile initFS (UpsertFile initFS initDB ['d', '/', 'x'] 2 [1]).2
    ['d', '/', 'y'] 2 [2, 3]).2

/- ### The claims -/

/-- C1: the claim says a failing upsert step rolls the transaction back,
returns a non-nil error and never discards one.  The code violates
this: the errors of the chunk `DELETE` and of every chunk `INSERT` are
bound to `err` variables shadowing the outer `err` the deferred
commit/rollback closure reads, so on such a failure the closure sees
nil, commits the partial transaction, and overwrites the returned error
with `Commit`'s nil result.  Concretely, injecting a store failure into
operation 2 (the chunk `DELETE`) of `UpsertFile("a", 1, [7])` on a
fresh store returns no error yet commits the new node; injecting it
into operation 3 (the first chunk `INSERT`) of `UpsertFile("a", 1,
[7,8])` returns no error yet commits a file node with no content. -/
theorem claim1_shadowed_error_commits :
    (UpsertFileF (fun n => decide (n = 2)) initFS initDB ['a'] 1 [7]
      = (none, ⟨[⟨1, ['/'], none, DirectoryType⟩, ⟨2, ['a'], some 1, RegularFileType⟩],
          [], 3⟩)) ∧
    ((⟨[⟨1, ['/'], none, DirectoryType⟩, ⟨2, ['a'], some 1, RegularFileType⟩],
        [], 3⟩ : DB) ≠ initDB) ∧
    (UpsertFileF (fun n => decide (n = 3)) initFS initDB ['a'] 1 [7, 8]
      = (none, ⟨[⟨1, ['/'], none, DirectoryType⟩, ⟨2, ['a'], some 1, RegularFileType⟩],
          [], 3⟩)) := by
  decide

/-- C2 (counterexample): the round trip fails for the valid relative
path `"."`.  `UpsertFile(".", 1, [7])` succeeds — it creates a regular
file named `"."` under the root — but `Open(".")` resolves to the root
directory itself: the reported size is 0, not 1, and reading to
end-of-stream yields nothing. -/
theorem claim2_dot_counterexample :
    validPath ['.'] = true ∧
    (UpsertFile initFS initDB ['.'] 1 [7]).1 = none ∧
    Open initFS (UpsertFile initFS initDB ['.'] 1 [7]).2 ['.']
      = .ok ⟨DirectoryType, ['.'], 1, 0, 0, false, false⟩ ∧
    readUntilEOF (UpsertFile initFS initDB ['.'] 1 [7]).2 1 2
      ⟨DirectoryType, ['.'], 1, 0, 0, false, false⟩ = [] ∧
    (0 : Nat) ≠ 1 ∧ ([] : List Byte) ≠ [7] := by
  decide

/-- C2 (amended): for every valid relative path other than `"."`,
every chunk size ≥ 1 and every byte sequence (including the empty one),
a successful `UpsertFile` followed by `Open` of the same path yields a
regular-file cursor reporting size `len data`, and reading it to
end-of-stream returns exactly `data`. -/
theorem claim2_roundtrip (fs : FSH) (db db2 : DB) (p : Str) (cs : Nat) (data : List Byte)
    (bufLen fuel : Nat)
    (hWF : NodesWF db) (hroot : fs.rootInode < db.nextInode)
    (hval : validPath p = true) (hp : p ≠ ['.']) (hcs : 1 ≤ cs)
    (hok : UpsertFile fs db p cs data = (none, db2))
    (hbuf : 1 ≤ bufLen) (hfuel : data.length < fuel) :
    ∃ ino,
      Open fs db2 p = .ok ⟨RegularFileType, p, ino, 0, data.length, false, false⟩ ∧
      readUntilEOF db2 bufLen fuel
        ⟨RegularFileType, p, ino, 0, data.length, false, false⟩ = data := by
  obtain ⟨ino, h1, h2, -⟩ := roundtrip_core fs db p p cs data bufLen fuel hWF hroot
    (valid_not_abs hval) hcs hval hp (by rw [(clean_of_valid hval hp).2]) hok hbuf hfuel
  exact ⟨ino, h1, h2⟩

theorem claim2_roundtrip_witness :
    NodesWF initDB ∧
    ∃ ino,
      Open initFS (UpsertFile initFS initDB ['a', '/', 'b'] 2 [5, 6, 7]).2 ['a', '/', 'b']
        = .ok ⟨RegularFileType, ['a', '/', 'b'], ino, 0, 3, false, false⟩ ∧
      readUntilEOF (UpsertFile initFS initDB ['a', '/', 'b'] 2 [5, 6, 7]).2 2 4
        ⟨RegularFileType, ['a', '/', 'b'], ino, 0, 3, false, false⟩ = [5, 6, 7] :=
  ⟨by decide,
   claim2_roundtrip initFS initDB (UpsertFile initFS initDB ['a', '/', 'b'] 2 [5, 6, 7]).2
     ['a', '/', 'b'] 2 [5, 6, 7] 2 4 (by decide) (by decide) (by decide) (by decide)
     (by decide) (by decide) (by decide) (by decide)⟩

/-- C3: after a successful overwrite `upsert(p, c1, d1); upsert(p, c2,
d2)` both calls resolve to the same file inode, whose chunk rows in the
final store are exactly `ceil (len d2 / c2)` rows at contiguous
positions `0..k-1`, each with `size` = its data length and at most
`c2` bytes, all but the last exactly `c2`, concatenating to `d2` (so
nothing of `d1` remains), and empty `d2` leaves zero rows while the
node still resolves. -/
theorem claim3_chunk_layout (fs : FSH) (db db1 db2 : DB) (p : Str) (c1 c2 : Nat)
    (d1 d2 : List Byte)
    (hWF : NodesWF db) (hroot : fs.rootInode < db.nextInode)
    (habs : isAbs p = false) (hc1 : 1 ≤ c1) (hc2 : 1 ≤ c2)
    (h1 : UpsertFile fs db p c1 d1 = (none, db1))
    (h2 : UpsertFile fs db1 p c2 d2 = (none, db2)) :
    ∃ ino,
      resolvesFile db1 fs.rootInode (splitSlash (clean p)) ino ∧
      resolvesFile db2 fs.rootInode (splitSlash (clean p)) ino ∧
      db2.chunks.filter (fun r => decide (r.inode = ino)) = chunkRows ino c2 d2 ∧
      (db2.chunks.filter (fun r => decide (r.inode = ino))).length
        = (d2.length + c2 - 1) / c2 ∧
      chunksContent (db2.chunks.filter (fun r => decide (r.inode = ino))) = d2 ∧
      (db2.chunks.filter (fun r => decide (r.inode = ino))).map ChunkRow.position
        = List.range' 0 ((d2.length + c2 - 1) / c2) ∧
      (∀ r ∈ db2.chunks.filter (fun r => decide (r.inode = ino)),
        r.size = r.data.length ∧ r.size ≤ c2) ∧
      (∀ r ∈ (db2.chunks.filter (fun r => decide (r.inode = ino))).dropLast, r.size = c2) ∧
      (d2 = [] → db2.chunks.filter (fun r => decide (r.inode = ino)) = []) := by
  obtain ⟨ino, hres1, hWF1, hroot1, -⟩ := upsert_ok_spec fs db p c1 d1 hWF hroot habs hc1 h1
  have hreplaced := upsert_resolved_spec fs db1 p c2 d2 habs hres1
  rw [h2] at hreplaced
  simp only [Prod.mk.injEq, true_and] at hreplaced
  have hfilter : db2.chunks.filter (fun r => decide (r.inode = ino)) = chunkRows ino c2 d2 := by
    rw [hreplaced]
    show ((db1.chunks.filter fun c => decide (c.inode ≠ ino))
        ++ chunkRows ino c2 d2).filter (fun r => decide (r.inode = ino)) = chunkRows ino c2 d2
    exact filter_replaced db1.chunks ino c2 hc2 d2
  have hspec := chunkRowsAux_spec ino c2 hc2 d2.length 0 d2 (Nat.le_refl _)
  refine ⟨ino, hres1, ?_, hfilter, ?_, ?_, ?_, ?_, ?_, ?_⟩
  · exact resolvesFile_congr (show db1.nodes = db2.nodes from by rw [hreplaced]) _ _ _ hres1
  · rw [hfilter]
    exact hspec.2.1
  · rw [hfilter]
    exact hspec.1
  · rw [hfilter]
    exact hspec.2.2.1
  · rw [hfilter]
    intro r hr
    exact ⟨(hspec.2.2.2.1 r hr).1, ((hspec.2.2.2.2.1 r hr)).2⟩
  · rw [hfilter]
    exact hspec.2.2.2.2.2.1
  · intro hd2
    rw [hfilter, hd2]
    rfl

theorem claim3_chunk_layout_witness :
    NodesWF initDB ∧
    ∃ ino,
      resolvesFile (UpsertFile initFS initDB ['p'] 2 [1, 2, 3, 4, 5]).2 1 [['p']] ino ∧
      resolvesFile
        (UpsertFile initFS (UpsertFile initFS initDB ['p'] 2 [1, 2, 3, 4, 5]).2
          ['p'] 3 [9, 8, 7, 6]).2 1 [['p']] ino ∧
      (UpsertFile initFS (UpsertFile initFS initDB ['p'] 2 [1, 2, 3, 4, 5]).2
          ['p'] 3 [9, 8, 7, 6]).2.chunks.filter (fun r => decide (r.inode = ino))
        = chunkRows ino 3 [9, 8, 7, 6] ∧
      ((UpsertFile initFS (UpsertFile initFS initDB ['p'] 2 [1, 2, 3, 4, 5]).2
          ['p'] 3 [9, 8, 7, 6]).2.chunks.filter (fun r => decide (r.inode = ino))).length
        = (4 + 3 - 1) / 3 ∧
      chunksContent
        ((UpsertFile initFS (UpsertFile initFS initDB ['p'] 2 [1, 2, 3, 4, 5]).2
          ['p'] 3 [9, 8, 7, 6]).2.chunks.filter (fun r => decide (r.inode = ino)))
        = [9, 8, 7, 6] ∧
      ((UpsertFile initFS (UpsertFile initFS initDB ['p'] 2 [1, 2, 3, 4, 5]).2
          ['p'] 3 [9, 8, 7, 6]).2.chunks.filter (fun r => decide (r.inode = ino))).map
          ChunkRow.position = List.range' 0 ((4 + 3 - 1) / 3) ∧
      (∀ r ∈ (UpsertFile initFS (UpsertFile initFS initDB ['p'] 2 [1, 2, 3, 4, 5]).2
          ['p'] 3 [9, 8, 7, 6]).2.chunks.filter (fun r => decide (r.inode = ino)),
        r.size = r.data.length ∧ r.size ≤ 3) ∧
      (∀ r ∈ ((UpsertFile initFS (UpsertFile initFS initDB ['p'] 2 [1, 2, 3, 4, 5]).2
          ['p'] 3 [9, 8, 7, 6]).2.chunks.filter (fun r => decide (r.inode = ino))).dropLast,
        r.size = 3) ∧
      (([9, 8, 7, 6] : List Byte) = [] →
        (UpsertFile initFS (UpsertFile initFS initDB ['p'] 2 [1, 2, 3, 4, 5]).2
          ['p'] 3 [9, 8, 7, 6]).2.chunks.filter (fun r => decide (r.inode = ino)) = []) :=
  ⟨by decide,
   claim3_chunk_layout initFS initDB (UpsertFile initFS initDB ['p'] 2 [1, 2, 3, 4, 5]).2
     (UpsertFile initFS (UpsertFile initFS initDB ['p'] 2 [1, 2, 3, 4, 5]).2
       ['p'] 3 [9, 8, 7, 6]).2
     ['p'] 2 3 [1, 2, 3, 4, 5] [9, 8, 7, 6] (by decide) (by decide) (by decide)
     (by decide) (by decide) (by decide) (by decide)⟩

/-- C4: the claim says deleting a non-empty directory fails with the
DirectoryNotEmpty error.  The code does refuse and does not mutate, but
it builds the error as `fmt.Errorf("%w: %s", err, fname)` at a point
where `err` is nil — the declared `DirNotEmptyErr` sentinel is never
used — so the returned error does not match DirectoryNotEmpty.  On the
store holding `a/b`, `DeleteFile("a")` returns the nil-wrapping error
and leaves the store intact; the rest of the claim behaves as stated:
`DeleteFile("a/b")` removes node and chunks and a later resolution
fails with the node-not-found error. -/
theorem claim4_delete_guard_eval :
    (UpsertFile initFS initDB ['a', '/', 'b'] 4 [1, 2, 3]).1 = none ∧
    DeleteFile initFS dbAB ['a'] = (some (.nilWrap ['a']), dbAB) ∧
    FsErr.isDirNotEmptyClass (.nilWrap ['a']) = false ∧
    (DeleteFile initFS dbAB ['a', '/', 'b']).1 = none ∧
    (DeleteFile initFS dbAB ['a', '/', 'b']).2.chunks = [] ∧
    namei initFS (DeleteFile initFS dbAB ['a', '/', 'b']).2 ['a', '/', 'b']
      = .error (.nodeNotFound 2 ['b']) ∧
    FsErr.isNodeNotFoundClass (.nodeNotFound 2 ['b']) = true := by
  decide

/-- C5: `File.Read` semantics on a regular-file cursor over well-formed
chunk rows: at or past the end it signals end-of-stream; otherwise it
copies exactly `n = min (size - offset) (len buffer)` consecutive file
bytes from the current offset, returns `n` and advances the offset by
`n`; after `Close` every read fails. -/
theorem claim5_read_semantics (db : DB) (f : File) (outLen : Nat)
    (hf : f.ftype = RegularFileType)
    (hWF : WFrows (fileChunks db f.inode))
    (hsize : f.size = totalSize (fileChunks db f.inode)) :
    (f.closed = false → f.size ≤ f.offset → fileRead db f outLen = .error .eof) ∧
    (f.closed = false → f.offset < f.size →
      fileRead db f outLen
        = .ok (min (f.size - f.offset) outLen,
            ((chunksContent (fileChunks db f.inode)).drop f.offset).take
              (min (f.size - f.offset) outLen),
            { f with offset := f.offset + min (f.size - f.offset) outLen })) ∧
    fileRead db (fileClose f) outLen = .error .fileClosed :=
  ⟨fun hcl hoff => fileRead_past_end db f outLen hf hcl hoff,
   fun hcl hoff => fileRead_ok db f outLen hf hcl hWF hsize hoff,
   fileRead_after_close db f outLen hf⟩

theorem claim5_read_semantics_witness :
    WFrows (fileChunks dbRW 2) ∧
    ((⟨RegularFileType, ['f'], 2, 2, 10, false, false⟩ : File).closed = false →
      (⟨RegularFileType, ['f'], 2, 2, 10, false, false⟩ : File).offset
          < (⟨RegularFileType, ['f'], 2, 2, 10, false, false⟩ : File).size →
      fileRead dbRW ⟨RegularFileType, ['f'], 2, 2, 10, false, false⟩ 4
        = .ok (min (10 - 2) 4,
            ((chunksContent (fileChunks dbRW 2)).drop 2).take (min (10 - 2) 4),
            ⟨RegularFileType, ['f'], 2, 2 + min (10 - 2) 4, 10, false, false⟩)) ∧
    fileRead dbRW (fileClose ⟨RegularFileType, ['f'], 2, 2, 10, false, false⟩) 4
      = .error .fileClosed :=
  ⟨by decide,
   (claim5_read_semantics dbRW ⟨RegularFileType, ['f'], 2, 2, 10, false, false⟩ 4
     (by decide) (by decide) (by decide)).2.1,
   (claim5_read_semantics dbRW ⟨RegularFileType, ['f'], 2, 2, 10, false, false⟩ 4
     (by decide) (by decide) (by decide)).2.2⟩

/-- C6: paginated enumeration of a directory with `N` children and
page size `k ≥ 1`: `ceil (N / k)` calls return non-empty pages whose
concatenation is exactly the `N` children as entries, each once, in
ascending inode order; the following positive-size call finds no
further children, returns an empty result without error and sets the
end flag; after that a positive page size signals end-of-stream while a
non-positive one returns an empty result without error. -/
theorem claim6_pagination (db : DB) (f : File) (kN : Nat)
    (hWF : NodesWF db) (hk : 1 ≤ kN)
    (hft : f.ftype = DirectoryType) (heof : f.eof = false) (hoff : f.offset = 0) :
    ((readDirPages db (kN : Int)
        (((childrenSorted db f.inode).length + kN - 1) / kN) f).1.flatten
      = (childrenSorted db f.inode).map (entryOf db)) ∧
    (∀ pg ∈ (readDirPages db (kN : Int)
        (((childrenSorted db f.inode).length + kN - 1) / kN) f).1, pg ≠ []) ∧
    (ReadDir db (readDirPages db (kN : Int)
          (((childrenSorted db f.inode).length + kN - 1) / kN) f).2 (kN : Int)
      = (.ok [], { (readDirPages db (kN : Int)
          (((childrenSorted db f.inode).length + kN - 1) / kN) f).2 with eof := true })) ∧
    (∀ n : Int, 0 < n →
      ReadDir db { (readDirPages db (kN : Int)
          (((childrenSorted db f.inode).length + kN - 1) / kN) f).2 with eof := true } n
        = (.error .eof, { (readDirPages db (kN : Int)
            (((childrenSorted db f.inode).length + kN - 1) / kN) f).2 with eof := true })) ∧
    (∀ n : Int, n ≤ 0 →
      ReadDir db { (readDirPages db (kN : Int)
          (((childrenSorted db f.inode).length + kN - 1) / kN) f).2 with eof := true } n
        = (.ok [], { (readDirPages db (kN : Int)
            (((childrenSorted db f.inode).length + kN - 1) / kN) f).2 with eof := true })) := by
  have hrem : childrenFrom db f.inode f.offset = (childrenSorted db f.inode).drop 0 := by
    rw [hoff, childrenFrom_zero db f.inode hWF, List.drop_zero]
  have hcnt : ((childrenSorted db f.inode).length + kN - 1) / kN
      = ((childrenSorted db f.inode).length - 0 + kN - 1) / kN := by
    rw [Nat.sub_zero]
  obtain ⟨ih1, ih2, ih3, ih4, ih5, ih6⟩ :=
    readDirPages_spec db f.inode hWF kN hk
      (((childrenSorted db f.inode).length + kN - 1) / kN) 0 f hft rfl heof hrem hcnt
  rw [List.drop_zero] at ih1
  set fMid := (readDirPages db (kN : Int)
    (((childrenSorted db f.inode).length + kN - 1) / kN) f).2 with hfMid
  have hnil : childrenFrom db fMid.inode fMid.offset = [] := by
    rw [ih4]
    exact ih6
  refine ⟨ih1, ih2, ?_, ?_, ?_⟩
  · exact ReadDir_exhausted db fMid (kN : Int) ih3 ih5 hnil (Int.natCast_pos.mpr (by omega))
  · intro n hn
    rw [ReadDir_after_eof db { fMid with eof := true } n ih3 rfl, if_pos hn]
  · intro n hn
    rw [ReadDir_after_eof db { fMid with eof := true } n ih3 rfl,
      if_neg (by omega)]

theorem claim6_pagination_witness :
    NodesWF dbDir ∧
    ((readDirPages dbDir ((1 : Nat) : Int)
        (((childrenSorted dbDir 2).length + 1 - 1) / 1)
        ⟨DirectoryType, ['d'], 2, 0, 0, false, false⟩).1.flatten
      = (childrenSorted dbDir 2).map (entryOf dbDir)) ∧
    (∀ pg ∈ (readDirPages dbDir ((1 : Nat) : Int)
        (((childrenSorted dbDir 2).length + 1 - 1) / 1)
        ⟨DirectoryType, ['d'], 2, 0, 0, false, false⟩).1, pg ≠ []) :=
  ⟨by decide,
   (claim6_pagination dbDir ⟨DirectoryType, ['d'], 2, 0, 0, false, false⟩ 1
     (by decide) (by decide) (by decide) (by decide) (by decide)).1,
   (claim6_pagination dbDir ⟨DirectoryType, ['d'], 2, 0, 0, false, false⟩ 1
     (by decide) (by decide) (by decide) (by decide) (by decide)).2.1⟩

/-- C7 (counterexample): `Open` does reject the absolute path `"/a"`,
but with the plain error of `fs.ValidPath` failure, which does not wrap
the `InvalidPathErr` sentinel, so the rejection is not "with the
InvalidPath error" as claimed. -/
theorem claim7_open_counterexample :
    Open initFS initDB ['/', 'a'] = .error (.openInvalid ['/', 'a']) ∧
    FsErr.isInvalidPathClass (.openInvalid ['/', 'a']) = false := by
  decide

/-- C7 (amended): every operation rejects an absolute-form path and
mutates nothing; `UpsertFile` and `DeleteFile` report the InvalidPath
error, while `Open` reports its own generic invalid-path error, which
does not match the InvalidPath sentinel. -/
theorem claim7_absolute_rejected (fs : FSH) (db : DB) (p : Str) (cs : Nat)
    (data : List Byte) (habs : isAbs p = true) :
    UpsertFile fs db p cs data = (some (.invalidPath p), db) ∧
    DeleteFile fs db p = (some (.invalidPath p), db) ∧
    Open fs db p = .error (.openInvalid p) ∧
    FsErr.isInvalidPathClass (.openInvalid p) = false := by
  refine ⟨?_, ?_, ?_, rfl⟩
  · unfold UpsertFile
    rw [if_pos habs]
  · unfold DeleteFile namei
    rw [if_pos habs]
  · unfold Open
    rw [if_pos (by rw [isAbs_not_valid habs]; exact Bool.false_ne_true)]

theorem claim7_absolute_rejected_witness :
    isAbs ['/', 'a'] = true ∧
    UpsertFile initFS initDB ['/', 'a'] 1 [7] = (some (.invalidPath ['/', 'a']), initDB) ∧
    DeleteFile initFS initDB ['/', 'a'] = (some (.invalidPath ['/', 'a']), initDB) ∧
    Open initFS initDB ['/', 'a'] = .error (.openInvalid ['/', 'a']) :=
  ⟨by decide,
   (claim7_absolute_rejected initFS initDB ['/', 'a'] 1 [7] (by decide)).1,
   (claim7_absolute_rejected initFS initDB ['/', 'a'] 1 [7] (by decide)).2.1,
   (claim7_absolute_rejected initFS initDB ['/', 'a'] 1 [7] (by decide)).2.2.1⟩

/-- C8: if the probe of an upsert finds the components before the
offending one to be directories and then hits an existing node of the
wrong kind — a non-directory at a non-final position, or a
non-regular-file at the final one — `UpsertFile` fails with the
IncorrectType error naming the offending sub-path and returns the store
unchanged. -/
theorem claim8_type_conflict (fs : FSH) (db : DB) (p : Str) (cs : Nat) (data : List Byte)
    (pre : List Str) (c : Str) (rest : List Str) (par : Nat) (nd : Node)
    (habs : isAbs p = false)
    (hsplit : splitSlash (clean p) = pre ++ c :: rest)
    (hwalk : walkDirs db fs.rootInode pre = some par)
    (hhit : lookupChild db par c = some nd)
    (hconf : (rest ≠ [] ∧ nd.ftype ≠ DirectoryType) ∨
      (rest = [] ∧ nd.ftype ≠ RegularFileType)) :
    UpsertFile fs db p cs data
      = (some (.incorrectType ('/' :: joinSlash (pre ++ [c])) nd.ftype), db) := by
  unfold UpsertFile
  rw [if_neg (by rw [habs]; exact Bool.false_ne_true)]
  simp only []
  rw [hsplit, addRFN_conflict pre db fs.rootInode par [] c rest nd hwalk hhit hconf]
  rw [List.nil_append]

theorem claim8_type_conflict_witness :
    walkDirs dbTC 1 [['a']] = some 2 ∧
    UpsertFile initFS dbTC ['a', '/', 'b', '/', 'c'] 2 [1]
      = (some (.incorrectType ['/', 'a', '/', 'b'] RegularFileType), dbTC) :=
  ⟨by decide,
   by
    have := claim8_type_conflict initFS dbTC ['a', '/', 'b', '/', 'c'] 2 [1]
      [['a']] ['b'] [['c']] 2 ⟨3, ['b'], some 2, RegularFileType⟩
      (by decide) (by decide) (by decide) (by decide) (by decide)
    exact this⟩

/-- C9 (counterexample): resolving the empty path does not yield the
root: on a fresh store `namei("")` walks the single empty component,
misses, and fails with the node-not-found error. -/
theorem claim9_empty_counterexample :
    namei initFS initDB [] = .error (.nodeNotFound 1 []) ∧
    namei initFS initDB [] ≠ .ok (initFS.rootInode, DirectoryType) := by
  decide

/-- C9 (amended): in every state, resolving `"."` yields the root
inode recorded on the handle with the directory type; resolving the
empty path instead looks up an empty-named child of the root and, when
none exists, fails with the node-not-found error naming the root and
the empty component. -/
theorem claim9_root_resolution (fs : FSH) (db : DB) :
    namei fs db ['.'] = .ok (fs.rootInode, DirectoryType) ∧
    (lookupChild db fs.rootInode [] = none →
      namei fs db [] = .error (.nodeNotFound fs.rootInode [])) := by
  constructor
  · unfold namei
    rw [if_neg (by decide), if_pos rfl]
  · intro h
    unfold namei
    rw [if_neg (by decide), if_neg (by decide)]
    show nameiWalk db fs.rootInode (0, []) (splitSlash []) = _
    rw [show splitSlash ([] : Str) = [[]] from rfl]
    unfold nameiWalk
    rw [h]

theorem claim9_root_resolution_witness :
    lookupChild initDB initFS.rootInode [] = none ∧
    namei initFS initDB ['.'] = .ok (initFS.rootInode, DirectoryType) ∧
    namei initFS initDB [] = .error (.nodeNotFound initFS.rootInode []) :=
  ⟨by decide,
   (claim9_root_resolution initFS initDB).1,
   (claim9_root_resolution initFS initDB).2 (by decide)⟩

/-- C10 (counterexample): the cleaning equivalence fails for spellings
that clean to `"."`.  `path.Clean("./.") = "."`, so
`UpsertFile("./.", 1, [7])` succeeds and stores the data under a
regular-file node literally named `"."` beneath the root — but `Open`
of the cleaned form `"."` resolves to the root directory itself: the
size is 0 and a full read returns nothing, so the two spellings do not
denote the same file node there. -/
theorem claim10_dot_counterexample :
    (UpsertFile initFS initDB ['.', '/', '.'] 1 [7]).1 = none ∧
    clean ['.', '/', '.'] = ['.'] ∧
    Open initFS (UpsertFile initFS initDB ['.', '/', '.'] 1 [7]).2 ['.']
      = .ok ⟨DirectoryType, ['.'], 1, 0, 0, false, false⟩ ∧
    readUntilEOF (UpsertFile initFS initDB ['.', '/', '.'] 1 [7]).2 1 2
      ⟨DirectoryType, ['.'], 1, 0, 0, false, false⟩ = [] ∧
    ([] : List Byte) ≠ [7] := by
  decide

/-- C10 (amended): `UpsertFile` cleans its path lexically before
walking, so for every relative spelling `p` whose cleaned components
equal those of a valid path `q` other than `"."` — in particular every
spelling with redundant separators or `.` components that does not
clean to `"."` itself — the upsert through `p` is the very same
operation as the upsert through `q`, and `Open` of the cleaned
spelling reads back the data: the two spellings denote the same file
node.  (Spellings cleaning to `"."` are excluded: there the equivalence
fails, see the counterexample.) -/
theorem claim10_clean_equivalence (fs : FSH) (db db2 : DB) (p q : Str) (cs : Nat)
    (data : List Byte) (bufLen fuel : Nat)
    (hWF : NodesWF db) (hroot : fs.rootInode < db.nextInode)
    (habs : isAbs p = false) (hcs : 1 ≤ cs)
    (hvq : validPath q = true) (hq : q ≠ ['.'])
    (hcomps : splitSlash q = splitSlash (clean p))
    (hok : UpsertFile fs db p cs data = (none, db2))
    (hbuf : 1 ≤ bufLen) (hfuel : data.length < fuel) :
    UpsertFile fs db q cs data = (none, db2) ∧
    ∃ ino,
      Open fs db2 q = .ok ⟨RegularFileType, q, ino, 0, data.length, false, false⟩ ∧
      readUntilEOF db2 bufLen fuel
        ⟨RegularFileType, q, ino, 0, data.length, false, false⟩ = data := by
  have hequpsert : UpsertFile fs db q cs data = UpsertFile fs db p cs data := by
    unfold UpsertFile
    rw [if_neg (by rw [valid_not_abs hvq]; exact Bool.false_ne_true),
      if_neg (by rw [habs]; exact Bool.false_ne_true)]
    simp only []
    rw [(clean_of_valid hvq hq).2, hcomps]
  refine ⟨by rw [hequpsert]; exact hok, ?_⟩
  obtain ⟨ino, h1, h2, -⟩ := roundtrip_core fs db p q cs data bufLen fuel hWF hroot habs hcs
    hvq hq hcomps hok hbuf hfuel
  exact ⟨ino, h1, h2⟩

theorem claim10_clean_equivalence_witness :
    splitSlash ['a', '/', 'b'] = splitSlash (clean ['a', '/', '/', 'b']) ∧
    UpsertFile initFS initDB ['a', '/', 'b'] 1 [9]
      = (none, (UpsertFile initFS initDB ['a', '/', '/', 'b'] 1 [9]).2) ∧
    ∃ ino,
      Open initFS (UpsertFile initFS initDB ['a', '/', '/', 'b'] 1 [9]).2 ['a', '/', 'b']
        = .ok ⟨RegularFileType, ['a', '/', 'b'], ino, 0, 1, false, false⟩ ∧
      readUntilEOF (UpsertFile initFS initDB ['a', '/', '/', 'b'] 1 [9]).2 1 2
        ⟨RegularFileType, ['a', '/', 'b'], ino, 0, 1, false, false⟩ = [9] :=
  ⟨by decide,
   (claim10_clean_equivalence initFS initDB
     (UpsertFile initFS initDB ['a', '/', '/', 'b'] 1 [9]).2
     ['a', '/', '/', 'b'] ['a', '/', 'b'] 1 [9] 1 2 (by decide) (by decide) (by decide)
     (by decide) (by decide) (by decide) (by decide) (by decide) (by decide) (by decide)).1,
   (claim10_clean_equivalence initFS initDB
     (UpsertFile initFS initDB ['a', '/', '/', 'b'] 1 [9]).2
     ['a', '/', '/', 'b'] ['a', '/', 'b'] 1 [9] 1 2 (by decide) (by decide) (by decide)
     (by decide) (by decide) (by decide) (by decide) (by decide) (by decide) (by decide)).2⟩

end Dbfs
